import Mathlib

/-!
Verification of the document-analysis core of the llm-docx repository.

The development shallowly embeds the TypeScript sources
(backend/services/chunker.ts, backend/services/hierarchy-extractor.ts,
backend/services/doc-sync.ts, backend/services/summarize.ts) into Lean.
Documents are lists of characters; JavaScript regular-expression based
splitting is modelled by explicit scanning functions with the same
semantics; SHA-256 is implemented bit-faithfully over the UTF-8 bytes;
the external capabilities (Embedder, VectorStore, Agent) are opaque
oracles, and the calls made to them are recorded in an event trace.
Floating point arithmetic of the embedding-similarity strategy is
modelled over the rationals with the square root supplied as an oracle
parameter; none of the verified claims depends on its values.
JavaScript toUpperCase and toLowerCase are modelled on the ASCII range.
-/

set_option maxHeartbeats 1000000
set_option maxRecDepth 10000

abbrev Str := List Char

deriving instance DecidableEq for Except

namespace LlmDocx

-- ── JavaScript character classes ──────────────────────────────────────

/-- Characters matched by the JavaScript regex class backslash-s
(whitespace, including line terminators). -/
def jsIsWs (c : Char) : Bool :=
  let n := c.toNat
  n = 0x20 || n = 0x09 || n = 0x0A || n = 0x0D || n = 0x0B || n = 0x0C ||
  n = 0xA0 || n = 0x1680 || (0x2000 ≤ n && n ≤ 0x200A) ||
  n = 0x2028 || n = 0x2029 || n = 0x202F || n = 0x205F || n = 0x3000 || n = 0xFEFF

/-- JavaScript line terminators (the characters not matched by the dot). -/
def jsIsLineTerm (c : Char) : Bool :=
  let n := c.toNat
  n = 0x0A || n = 0x0D || n = 0x2028 || n = 0x2029

/-- Model of String.prototype.trim. -/
def jsTrim (s : Str) : Str :=
  ((s.dropWhile jsIsWs).reverse.dropWhile jsIsWs).reverse

/-- ASCII model of String.prototype.toUpperCase. -/
def jsToUpper (s : Str) : Str := s.map Char.toUpper

/-- ASCII model of String.prototype.toLowerCase. -/
def jsToLower (s : Str) : Str := s.map Char.toLower

-- ── Splitting helpers ────────────────────────────────────────────────

/-- Accumulator loop of listLen. -/
def listLenAux : Nat → List α → Nat
  | acc, [] => acc
  | acc, _ :: t => listLenAux (acc + 1) t

/-- Length of a list.  Equal to List.length (proved below); the
accumulator form keeps kernel evaluation of long documents iterative. -/
def listLen (l : List α) : Nat := listLenAux 0 l

/-- Model of text.split(sepChar) for a single-character separator. -/
def splitOnChar (sep : Char) : Str → List Str
  | [] => [[]]
  | c :: t =>
    if c = sep then [] :: splitOnChar sep t
    else match splitOnChar sep t with
      | [] => [[c]]
      | p :: ps => (c :: p) :: ps

/-- Index of the last newline character of a list, if any. -/
def lastNlIdx (w : Str) : Option Nat :=
  match w with
  | [] => none
  | c :: t =>
    match lastNlIdx t with
    | some j => some (j + 1)
    | none => if c = '\n' then some 0 else none

/-- Model of text.split on the PARAGRAPH_SPLIT regex: a newline, then
greedy whitespace, then a newline.  A match starts at a newline whose
following maximal whitespace run contains another newline; the greedy
match ends just after the last newline of that run. -/
def paraSplitGo : Nat → Str → Str → List Str
  | 0, acc, _ => [acc.reverse]
  | _ + 1, acc, [] => [acc.reverse]
  | fuel + 1, acc, c :: t =>
    if c = '\n' then
      match lastNlIdx (t.takeWhile jsIsWs) with
      | some j => acc.reverse :: paraSplitGo fuel [] (t.drop (j + 1))
      | none => paraSplitGo fuel (c :: acc) t
    else paraSplitGo fuel (c :: acc) t

/-- Pieces of text.split on the PARAGRAPH_SPLIT regex.  The fuel only
forces structural recursion; one unit is consumed per character. -/
def paraSplit (s : Str) : List Str := paraSplitGo (listLen s + 1) [] s

/-- Sentence terminator characters of the SENTENCE_SPLIT regex. -/
def isSentTerm (c : Char) : Bool := c = '.' || c = '!' || c = '?'

/-- Model of para.split on the SENTENCE_SPLIT regex (a whitespace run
preceded by a sentence terminator, via lookbehind). -/
def sentSplitGo : Nat → Option Char → Str → Str → List Str
  | 0, _, acc, _ => [acc.reverse]
  | _ + 1, _, acc, [] => [acc.reverse]
  | fuel + 1, prev, acc, c :: t =>
    if jsIsWs c && (match prev with | some p => isSentTerm p | none => false) then
      acc.reverse :: sentSplitGo fuel none [] (t.dropWhile jsIsWs)
    else
      sentSplitGo fuel (some c) (c :: acc) t

/-- Pieces of text.split on the SENTENCE_SPLIT regex. -/
def sentSplit (s : Str) : List Str := sentSplitGo (listLen s + 1) none [] s

/-- Maximal non-whitespace runs of a string; splitting on a whitespace
regex and dropping empty pieces yields exactly these pieces. -/
def wordRunsF : Nat → Str → List Str
  | 0, _ => []
  | _ + 1, [] => []
  | fuel + 1, c :: t =>
    if jsIsWs c then wordRunsF fuel (t.dropWhile jsIsWs)
    else (c :: t.takeWhile (fun x => !jsIsWs x)) :: wordRunsF fuel (t.dropWhile (fun x => !jsIsWs x))

/-- Maximal non-whitespace runs of a string. -/
def wordRuns (s : Str) : List Str := wordRunsF (listLen s + 1) s

-- ── indexOf ──────────────────────────────────────────────────────────

/-- Scanning loop for indexOf: first position at or after i where pat is
a prefix of the remaining text. -/
def idxAux (pat : Str) : Str → Nat → Option Nat
  | [], i => if pat.isEmpty then some i else none
  | c :: t, i => if pat.isPrefixOf (c :: t) then some i else idxAux pat t (i + 1)

/-- Model of text.indexOf(pat, from) with the start position clamped to
the text as JavaScript does; none models the -1 result. -/
def idxOfFrom (text pat : Str) (start : Nat) : Option Nat :=
  idxAux pat (text.drop (min start (listLen text))) (min start (listLen text))

/-- Model of str.indexOf(c) for a single character. -/
def idxOfChar (c : Char) : Str → Option Nat
  | [] => none
  | x :: t =>
    if x = c then some 0
    else match idxOfChar c t with
      | some j => some (j + 1)
      | none => none

/-- Model of str.slice(-n) for n greater than 0: the last n characters
(the whole string when n is at least the length). -/
def lastN (n : Nat) (s : Str) : Str := s.drop (listLen s - n)

-- ── SHA-256 over the UTF-8 bytes (chunker.ts sha256 helper) ──────────

/-- UTF-8 encoding of one scalar value, as byte values. -/
def utf8Char (c : Char) : List Nat :=
  let n := c.toNat
  if n < 0x80 then [n]
  else if n < 0x800 then
    [0xC0 ||| (n >>> 6), 0x80 ||| (n &&& 0x3F)]
  else if n < 0x10000 then
    [0xE0 ||| (n >>> 12), 0x80 ||| ((n >>> 6) &&& 0x3F), 0x80 ||| (n &&& 0x3F)]
  else
    [0xF0 ||| (n >>> 18), 0x80 ||| ((n >>> 12) &&& 0x3F),
     0x80 ||| ((n >>> 6) &&& 0x3F), 0x80 ||| (n &&& 0x3F)]

/-- UTF-8 bytes of a document (the TextEncoder step of sha256). -/
def utf8Encode (s : Str) : List Nat := (s.map utf8Char).flatten

def w32 (n : Nat) : Nat := n % 4294967296

def wadd (a b : Nat) : Nat := (a + b) % 4294967296

def rotr (n x : Nat) : Nat := w32 ((x >>> n) ||| (x <<< (32 - n)))

def wnot (x : Nat) : Nat := 4294967295 - x

def sSig0 (x : Nat) : Nat := (rotr 7 x) ^^^ (rotr 18 x) ^^^ (x >>> 3)

def sSig1 (x : Nat) : Nat := (rotr 17 x) ^^^ (rotr 19 x) ^^^ (x >>> 10)

def bSig0 (x : Nat) : Nat := (rotr 2 x) ^^^ (rotr 13 x) ^^^ (rotr 22 x)

def bSig1 (x : Nat) : Nat := (rotr 6 x) ^^^ (rotr 11 x) ^^^ (rotr 25 x)

def chF (x y z : Nat) : Nat := (x &&& y) ^^^ ((wnot x) &&& z)

def majF (x y z : Nat) : Nat := (x &&& y) ^^^ (x &&& z) ^^^ (y &&& z)

def sha256K : List Nat :=
  [1116352408, 1899447441, 3049323471, 3921009573, 961987163,
   1508970993, 2453635748, 2870763221, 3624381080, 310598401,
   607225278, 1426881987, 1925078388, 2162078206, 2614888103,
   3248222580, 3835390401, 4022224774, 264347078, 604807628,
   770255983, 1249150122, 1555081692, 1996064986, 2554220882,
   2821834349, 2952996808, 3210313671, 3336571891, 3584528711,
   113926993, 338241895, 666307205, 773529912, 1294757372,
   1396182291, 1695183700, 1986661051, 2177026350, 2456956037,
   2730485921, 2820302411, 3259730800, 3345764771, 3516065817,
   3600352804, 4094571909, 275423344, 430227734, 506948616,
   659060556, 883997877, 958139571, 1322822218, 1537002063,
   1747873779, 1955562222, 2024104815, 2227730452, 2361852424,
   2428436474, 2756734187, 3204031479, 3329325298]

def sha256H0 : List Nat :=
  [1779033703, 3144134277, 1013904242, 2773480762,
   1359893119, 2600822924, 528734635, 1541459225]

/-- SHA-256 message padding: append 0x80, zeros to 56 mod 64, then the
bit length as 8 big-endian bytes. -/
def shaPad (bytes : List Nat) : List Nat :=
  let len := bytes.length
  let bitLen := 8 * len
  let z := (120 - (len + 1) % 64) % 64
  bytes ++ [0x80] ++ List.replicate z 0 ++
    [(bitLen >>> 56) &&& 0xFF, (bitLen >>> 48) &&& 0xFF, (bitLen >>> 40) &&& 0xFF,
     (bitLen >>> 32) &&& 0xFF, (bitLen >>> 24) &&& 0xFF, (bitLen >>> 16) &&& 0xFF,
     (bitLen >>> 8) &&& 0xFF, bitLen &&& 0xFF]

/-- Grouping of a list into runs of n elements (n at least 1). -/
def groupNF (n : Nat) : Nat → List α → List (List α)
  | 0, _ => []
  | _ + 1, [] => []
  | fuel + 1, x :: xs => (x :: xs).take n :: groupNF n fuel (xs.drop (n - 1))

/-- Grouping of a list into runs of n elements (n at least 1). -/
def groupN (n : Nat) (l : List α) : List (List α) := groupNF n (listLen l + 1) l

/-- Big-endian 32-bit words from bytes. -/
def bytesToWords (bytes : List Nat) : List Nat :=
  (groupN 4 bytes).map fun g =>
    (g.getD 0 0) <<< 24 ||| (g.getD 1 0) <<< 16 ||| (g.getD 2 0) <<< 8 ||| g.getD 3 0

/-- SHA-256 message schedule: extend 16 words to 64. -/
def shaSchedule (ws : List Nat) : List Nat :=
  (List.range 48).foldl
    (fun acc j =>
      let i := j + 16
      acc ++ [wadd (wadd (sSig1 (acc.getD (i - 2) 0)) (acc.getD (i - 7) 0))
                   (wadd (sSig0 (acc.getD (i - 15) 0)) (acc.getD (i - 16) 0))])
    ws

/-- One SHA-256 compression round. -/
def shaRound (st : Nat × Nat × Nat × Nat × Nat × Nat × Nat × Nat) (kw : Nat × Nat) :
    Nat × Nat × Nat × Nat × Nat × Nat × Nat × Nat :=
  match st, kw with
  | (a, b, c, d, e, f, g, h), (k, w) =>
    let t1 := wadd (wadd (wadd h (bSig1 e)) (wadd (chF e f g) k)) w
    let t2 := wadd (bSig0 a) (majF a b c)
    (wadd t1 t2, a, b, c, wadd d t1, e, f, g)

/-- Compression of one 16-word block into the running hash. -/
def shaBlock (h : List Nat) (block : List Nat) : List Nat :=
  let ws := shaSchedule block
  let init : Nat × Nat × Nat × Nat × Nat × Nat × Nat × Nat :=
    (h.getD 0 0, h.getD 1 0, h.getD 2 0, h.getD 3 0,
     h.getD 4 0, h.getD 5 0, h.getD 6 0, h.getD 7 0)
  let fin := (sha256K.zip ws).foldl shaRound init
  match fin with
  | (a, b, c, d, e, f, g, hh) =>
    List.zipWith wadd h [a, b, c, d, e, f, g, hh]

def hexDigit (n : Nat) : Char :=
  if n < 10 then Char.ofNat (48 + n) else Char.ofNat (87 + n)

/-- Lower-case hexadecimal rendering of one byte, two digits. -/
def byteHex (b : Nat) : Str := [hexDigit ((b >>> 4) &&& 0xF), hexDigit (b &&& 0xF)]

/-- Digest bytes of a 32-bit word, big-endian. -/
def wordBytes (w : Nat) : List Nat :=
  [(w >>> 24) &&& 0xFF, (w >>> 16) &&& 0xFF, (w >>> 8) &&& 0xFF, w &&& 0xFF]

/-- Model of the sha256 helper of chunker.ts: lower-case hex SHA-256 of
the UTF-8 bytes of the text. -/
def sha256M (s : Str) : Str :=
  let blocks := groupN 16 (bytesToWords (shaPad (utf8Encode s)))
  let final := blocks.foldl shaBlock sha256H0
  ((final.map wordBytes).flatten.map byteHex).flatten

-- ── Chunker (backend/services/chunker.ts) ────────────────────────────

/-- ChunkOptions of chunker.ts; absent fields take the defaults 1000
and 200. -/
structure ChunkOptions where
  maxChunkSize : Option Int := none
  overlap : Option Int := none
  deriving DecidableEq, Repr

/-- Chunk of chunker.ts.  The field named end in the source is endPos
here because end is a Lean keyword. -/
structure Chunk where
  index : Nat
  text : Str
  start : Int
  endPos : Int
  hash : Str
  sectionTitle : Option Str := none
  sectionPath : Option Str := none
  contextPrefix : Option Str := none
  deriving DecidableEq, Repr

/-- Greedy sentence packing loop of splitIntoSegments (step 2): flush
the buffer when appending the next trimmed sentence would exceed
maxSize. -/
def packSentences (maxSize : Int) : Str → List Str → List Str
  | current, [] => if 0 < listLen current then [current] else []
  | current, s :: rest =>
    let trimmed := jsTrim s
    if (listLen current : Int) + listLen trimmed + 1 > maxSize ∧ 0 < listLen current then
      current :: packSentences maxSize trimmed rest
    else
      packSentences maxSize
        (if 0 < listLen current then current ++ ' ' :: trimmed else trimmed) rest

/-- Merging loop of splitIntoSegments (step 3): pack consecutive small
segments, joined by a blank line, until approaching maxSize. -/
def mergeSegs (maxSize : Int) : Str → List Str → List Str
  | buffer, [] => if 0 < listLen buffer then [buffer] else []
  | buffer, seg :: rest =>
    if (listLen buffer : Int) + listLen seg + 2 > maxSize ∧ 0 < listLen buffer then
      buffer :: mergeSegs maxSize seg rest
    else
      mergeSegs maxSize
        (if 0 < listLen buffer then buffer ++ '\n' :: '\n' :: seg else seg) rest

/-- Model of splitIntoSegments of chunker.ts. -/
def splitIntoSegments (text : Str) (maxSize : Int) : List Str :=
  let paragraphs := (paraSplit text).filter (fun p => 0 < listLen (jsTrim p))
  let rawSegments := (paragraphs.map (fun para =>
    if (listLen para : Int) ≤ maxSize then [jsTrim para]
    else packSentences maxSize []
      ((sentSplit para).filter (fun s => 0 < listLen (jsTrim s))))).flatten
  mergeSegs maxSize [] rawSegments

/-- Word-boundary cleaning of the overlap slice in applyOverlap: the
last overlap characters of the previous segment, cut after the first
space when that space is at a positive index. -/
def cleanOverlapOf (overlap : Int) (prev : Str) : Str :=
  let overlapText := lastN overlap.toNat prev
  match idxOfChar ' ' overlapText with
  | some firstSpace =>
    if 0 < firstSpace then overlapText.drop (firstSpace + 1) else overlapText
  | none => overlapText

/-- Model of applyOverlap of chunker.ts. -/
def applyOverlap (segments : List Str) (overlap : Int) : List Str :=
  if overlap ≤ 0 ∨ listLen segments ≤ 1 then segments
  else
    match segments with
    | [] => []
    | s0 :: rest =>
      s0 :: (List.zip (s0 :: rest) rest).map
        (fun pc => cleanOverlapOf overlap pc.1 ++ ' ' :: pc.2)

/-- Position-assigning loop of chunkText: locate each canonical segment
with a forward search cursor; on a miss clamp start to 0 and set the
end to the cursor. -/
def assignPos (text : Str) : Nat → Nat → List (Str × Str) → List Chunk
  | _, _, [] => []
  | i, searchFrom, (ovText, canonical) :: rest =>
    match idxOfFrom text canonical searchFrom with
    | some p =>
      { index := i, text := ovText, start := (p : Int),
        endPos := (p : Int) + listLen canonical,
        hash := sha256M ovText } :: assignPos text (i + 1) (p + 1) rest
    | none =>
      { index := i, text := ovText, start := 0, endPos := (searchFrom : Int),
        hash := sha256M ovText } :: assignPos text (i + 1) searchFrom rest

/-- Model of chunkText of chunker.ts. -/
def chunkTextM (text : Str) (options : ChunkOptions) : List Chunk :=
  let maxChunkSize := options.maxChunkSize.getD 1000
  let overlap := options.overlap.getD 200
  let segments := splitIntoSegments text maxChunkSize
  let overlapped := applyOverlap segments overlap
  assignPos text 0 0 (overlapped.zip segments)

/-- Document statistics returned by analyzeText. -/
structure AnalyzeStats where
  totalCharacters : Nat
  totalWords : Nat
  totalParagraphs : Nat
  deriving DecidableEq, Repr

/-- Model of analyzeText of chunker.ts. -/
def analyzeTextM (text : Str) : AnalyzeStats :=
  { totalCharacters := listLen text
    totalWords := listLen (wordRuns text)
    totalParagraphs := listLen ((paraSplit text).filter (fun p => 0 < listLen (jsTrim p))) }

/-- Model of hashDocument of chunker.ts. -/
def hashDocumentM (text : Str) : Str := sha256M text

-- ── Hierarchy extractor (backend/services/hierarchy-extractor.ts) ────

/-- Embedding vectors; float components are modelled as rationals. -/
abbrev Vec := List Rat

/-- HierarchyOptions of hierarchy-extractor.ts; absent fields take the
DEFAULTS of resolveOptions. -/
structure HierarchyOptions where
  similarityThreshold : Option Rat := none
  minSectionSize : Option Int := none
  docSummaryMaxSentences : Option Nat := none
  sectionSummaryMaxSentences : Option Nat := none
  maxOutlineDepth : Option Nat := none

def HierarchyOptions.simThreshold (o : HierarchyOptions) : Rat :=
  o.similarityThreshold.getD (1 / 2)

def HierarchyOptions.minSection (o : HierarchyOptions) : Int :=
  o.minSectionSize.getD 200

def HierarchyOptions.docSumMax (o : HierarchyOptions) : Nat :=
  o.docSummaryMaxSentences.getD 3

def HierarchyOptions.secSumMax (o : HierarchyOptions) : Nat :=
  o.sectionSummaryMaxSentences.getD 1

def HierarchyOptions.outlineDepth (o : HierarchyOptions) : Nat :=
  o.maxOutlineDepth.getD 6

/-- Flat heading of extractHeadings: level, title and the character
offset of the start of its source line. -/
structure FlatHeading where
  level : Nat
  title : Str
  offset : Nat
  deriving DecidableEq, Repr

/-- HeadingNode of hierarchy-extractor.ts.  Offsets are integers since
the embedding-similarity path stores JavaScript numbers that can be -1
in degenerate cases. -/
inductive HeadingNode where
  | mk (level : Nat) (title : Str) (startOffset endOffset : Int)
       (children : List HeadingNode)

def HeadingNode.level : HeadingNode → Nat
  | .mk l _ _ _ _ => l

def HeadingNode.title : HeadingNode → Str
  | .mk _ t _ _ _ => t

def HeadingNode.startOffset : HeadingNode → Int
  | .mk _ _ s _ _ => s

def HeadingNode.endOffset : HeadingNode → Int
  | .mk _ _ _ e _ => e

def HeadingNode.children : HeadingNode → List HeadingNode
  | .mk _ _ _ _ cs => cs

/-- Markdown heading recognizer: one to six leading hash marks, then at
least one whitespace character, then a title reaching the end of the
line with no line terminator inside (the regex dot cannot cross one). -/
def mdHeading? (trimmed : Str) : Option (Nat × Str) :=
  let hashes := (trimmed.takeWhile (fun c => c = '#')).length
  let rest := trimmed.drop hashes
  if 1 ≤ hashes ∧ hashes ≤ 6 then
    match rest with
    | [] => none
    | c :: _ =>
      if jsIsWs c then
        let title := rest.dropWhile jsIsWs
        if 0 < title.length ∧ title.all (fun x => !jsIsLineTerm x) then
          some (hashes, jsTrim title)
        else none
      else none
  else none

/-- Capitalization of the first character of a word (charAt(0) of the
lower-cased word followed by the remainder). -/
def titleCaseWord (w : Str) : Str :=
  match w with
  | [] => []
  | c :: t => Char.toUpper c :: t

/-- Single-character join, the model of Array.prototype.join. -/
def joinSep (sep : Char) : List Str → Str
  | [] => []
  | [x] => x
  | x :: xs => x ++ sep :: joinSep sep xs

/-- Join with a string separator. -/
def joinSepStr (sep : Str) : List Str → Str
  | [] => []
  | [x] => x
  | x :: xs => x ++ sep ++ joinSepStr sep xs

/-- Model of the titleCase helper of hierarchy-extractor.ts. -/
def titleCase (s : Str) : Str :=
  joinSep ' ' ((splitOnChar ' ' (jsToLower s)).map titleCaseWord)

/-- Test on the first character of a string, false on the empty one. -/
def firstCharIs (p : Char → Bool) (s : Str) : Bool :=
  match s with
  | [] => false
  | c :: _ => p c

/-- ALL-CAPS heading recognizer: trimmed length at least 5, equal to its
upper-case form, first character a capital letter, at least three
whitespace-separated words, not starting with a list or quote marker. -/
def allCapsHeading? (trimmed : Str) : Option (Nat × Str) :=
  if 5 ≤ listLen trimmed ∧ trimmed = jsToUpper trimmed ∧
     firstCharIs (fun c => 'A' ≤ c && c ≤ 'Z') trimmed = true ∧
     3 ≤ listLen (wordRuns trimmed) ∧
     firstCharIs (fun c => c = '#' || c = '-' || c = '*' || c = '>') trimmed = false
  then some (1, titleCase trimmed) else none

/-- Parsing of the repeated dot-digits groups of the numeric heading
regex; returns the number of groups and the remaining characters. -/
def numGroupsF : Nat → Str → Nat × Str
  | 0, s => (0, s)
  | fuel + 1, s =>
    match s with
    | '.' :: rest =>
      let ds := rest.takeWhile Char.isDigit
      if ds.length = 0 then (0, s)
      else
        let kr := numGroupsF fuel (rest.drop ds.length)
        (kr.1 + 1, kr.2)
    | _ => (0, s)

/-- Numeric heading recognizer: digits, dot-digit groups, a closing dot
or parenthesis, whitespace, then a terminator-free title; the level is
the dotted depth capped at six. -/
def numHeading? (trimmed : Str) : Option (Nat × Str) :=
  let digits := trimmed.takeWhile Char.isDigit
  if digits.length = 0 then none
  else
    let gr := numGroupsF trimmed.length (trimmed.drop digits.length)
    let depth := gr.1 + 1
    match gr.2 with
    | c :: r2 =>
      if c = '.' ∨ c = ')' then
        match r2 with
        | d :: _ =>
          if jsIsWs d then
            let title := r2.dropWhile jsIsWs
            if 0 < title.length ∧ title.all (fun x => !jsIsLineTerm x) then
              some (min depth 6, jsTrim title)
            else none
          else none
        | [] => none
      else none
    | [] => none

/-- Ordered recognizer chain of extractHeadings: markdown, ALL-CAPS,
numeric. -/
def recognizeHeading (trimmed : Str) : Option (Nat × Str) :=
  match mdHeading? trimmed with
  | some r => some r
  | none =>
    match allCapsHeading? trimmed with
    | some r => some r
    | none => numHeading? trimmed

/-- Line scanning loop of extractHeadings, with the running offset that
advances by the line length plus one. -/
def extractHeadingsAux : Nat → List Str → List FlatHeading
  | _, [] => []
  | off, line :: rest =>
    (match recognizeHeading (jsTrim line) with
     | some lt => [⟨lt.1, lt.2, off⟩]
     | none => []) ++ extractHeadingsAux (off + line.length + 1) rest

/-- Model of extractHeadings of hierarchy-extractor.ts. -/
def extractHeadings (text : Str) : List FlatHeading :=
  extractHeadingsAux 0 (splitOnChar '\n' text)

/-- Flat heading extended with its assigned end offset. -/
structure FlatHE where
  level : Nat
  title : Str
  offset : Nat
  endOffset : Nat
  deriving DecidableEq, Repr

/-- End-offset assignment of buildHierarchyTree: the offset of the next
same-or-higher-level heading, else the document length. -/
def assignEnds (docLength : Nat) : List FlatHeading → List FlatHE
  | [] => []
  | h :: rest =>
    let e := match rest.find? (fun n => n.level ≤ h.level) with
      | some n => n.offset
      | none => docLength
    ⟨h.level, h.title, h.offset, e⟩ :: assignEnds docLength rest

/-- Recursive nesting loop of buildHierarchyTree.  The children of a
node are the contiguous following headings of strictly greater level;
iteration resumes at the next same-or-higher-level heading.  The fuel
only forces structural recursion. -/
def nestFromF : Nat → Nat → List FlatHE → List HeadingNode
  | 0, _, _ => []
  | _ + 1, _, [] => []
  | fuel + 1, parentLevel, h :: rest =>
    if h.level ≤ parentLevel ∧ 0 < parentLevel then []
    else
      let kids := rest.takeWhile (fun x => h.level < x.level)
      let others := rest.dropWhile (fun x => h.level < x.level)
      HeadingNode.mk h.level h.title (h.offset : Int) (h.endOffset : Int)
          (nestFromF fuel h.level kids) ::
        nestFromF fuel parentLevel others

/-- Model of buildHierarchyTree of hierarchy-extractor.ts. -/
def buildHierarchyTree (flat : List FlatHeading) (docLength : Nat) : List HeadingNode :=
  nestFromF (flat.length + 1) 0 (assignEnds docLength flat)

/-- Decimal rendering of a number. -/
def natToStr (n : Nat) : Str := Nat.toDigits 10 n

/-- Indentation of generateOutline: two spaces repeated level - 1
times. -/
def indentOf (level : Nat) : Str :=
  (List.replicate (level - 1) [' ', ' ']).flatten

mutual

/-- Lines contributed by one node of generateOutline: nothing beyond
maxDepth, else the numbered line and, when there are children, their
whole nested outline (already joined by newlines) pushed as a single
element. -/
def outlineNodeLines (maxDepth : Nat) (pre : Str) (idx : Nat) :
    HeadingNode → List Str
  | .mk level title _ _ children =>
    if maxDepth < level then []
    else
      let num := pre ++ natToStr (idx + 1)
      (indentOf level ++ num ++ '.' :: ' ' :: title) ::
        (if 0 < children.length then
           [joinSep '\n' (outlineLines maxDepth (num ++ ['.']) 0 children)]
         else [])

/-- Line accumulation loop of generateOutline; the forEach index keeps
counting nodes skipped for depth. -/
def outlineLines (maxDepth : Nat) (pre : Str) (idx : Nat) :
    List HeadingNode → List Str
  | [] => []
  | n :: rest =>
    outlineNodeLines maxDepth pre idx n ++ outlineLines maxDepth pre (idx + 1) rest

end

/-- Model of generateOutline of hierarchy-extractor.ts. -/
def genOutline (maxDepth : Nat) (pre : Str) (ns : List HeadingNode) : Str :=
  joinSep '\n' (outlineLines maxDepth pre 0 ns)

/-- Outline of a tree with the default empty prefix. -/
def generateOutlineM (tree : List HeadingNode) (maxDepth : Nat) : Str :=
  genOutline maxDepth [] tree

/-- Matching loop of the global sentence regex: a maximal run of
non-terminators followed by a maximal run of terminators, scanned left
to right. -/
def msentF : Nat → Str → List Str
  | 0, _ => []
  | _ + 1, [] => []
  | fuel + 1, s =>
    let s1 := s.dropWhile isSentTerm
    let a := s1.takeWhile (fun c => !isSentTerm c)
    let r := s1.dropWhile (fun c => !isSentTerm c)
    match r with
    | [] => []
    | _ :: _ => (a ++ r.takeWhile isSentTerm) :: msentF fuel (r.dropWhile isSentTerm)

/-- Model of the extractSentences helper: the first maxSentences regex
matches (or the whole trimmed text when there is none), trimmed and
joined by single spaces. -/
def extractSentences (text : Str) (maxSentences : Nat) : Str :=
  let ss := msentF (listLen text + 1) text
  let sentences := if ss.isEmpty then [jsTrim text] else ss
  joinSep ' ' ((sentences.take maxSentences).map jsTrim)

/-- Model of generateDocSummary. -/
def generateDocSummary (text : Str) (maxSentences : Nat) : Str :=
  extractSentences text maxSentences

/-- SectionSummary of hierarchy-extractor.ts. -/
structure SectionSummary where
  title : Str
  summary : Str
  startOffset : Int
  endOffset : Int
  deriving DecidableEq, Repr

/-- Model of String.prototype.slice with two signed arguments. -/
def jsSlice (s : Str) (a b : Int) : Str :=
  let len : Int := s.length
  let lo := if a < 0 then max (len + a) 0 else min a len
  let hi := if b < 0 then max (len + b) 0 else min b len
  (s.drop lo.toNat).take (hi - lo).toNat

/-- Model of generateSectionSummaries. -/
def generateSectionSummaries (text : Str) (sections : List HeadingNode)
    (maxSentences : Nat) : List SectionSummary :=
  sections.map fun s =>
    { title := s.title
      summary := extractSentences (jsSlice text s.startOffset s.endOffset) maxSentences
      startOffset := s.startOffset
      endOffset := s.endOffset }

/-- Paragraph with offsets of the splitParagraphs helper.  The start is
an integer because it is the raw indexOf result, -1 on a miss. -/
structure Para where
  text : Str
  start : Int
  endPos : Int
  deriving DecidableEq, Repr

/-- Offset-tracking loop of splitParagraphs; the cursor advances by the
approximation part length plus one and positions are recovered with
indexOf from the cursor. -/
def splitParagraphsGo (text : Str) : Nat → List Str → List Para
  | _, [] => []
  | offset, part :: rest =>
    let trimmed := jsTrim part
    (if 0 < trimmed.length then
      let start : Int :=
        match idxOfFrom text trimmed offset with
        | some p => (p : Int)
        | none => -1
      [⟨trimmed, start, start + trimmed.length⟩]
    else []) ++ splitParagraphsGo text (offset + part.length + 1) rest

/-- Model of the splitParagraphs helper of hierarchy-extractor.ts. -/
def splitParagraphsM (text : Str) : List Para :=
  splitParagraphsGo text 0 (paraSplit text)

/-- Model of cosineSimilarity; the square root of the float original is
an oracle parameter, and the component sums run over the zipped pairs
(the source indexes both vectors by the first vector's length). -/
def cosineSimilarity (sqrtA : Rat → Rat) (a b : Vec) : Rat :=
  let dot := (a.zip b).foldl (fun acc p => acc + p.1 * p.2) 0
  let magA := (a.zip b).foldl (fun acc p => acc + p.1 * p.1) 0
  let magB := (a.zip b).foldl (fun acc p => acc + p.2 * p.2) 0
  let denom := sqrtA magA * sqrtA magB
  if denom = 0 then 0 else dot / denom

/-- Boundary-merging loop of mergeTinySections: a candidate boundary is
kept only when the section it would close reaches minSize characters of
paragraph text. -/
def mergeTinyGo (paragraphs : List Para) (minSize : Int) :
    Nat → List Nat → List Nat
  | _, [] => []
  | prevStart, currentStart :: rest =>
    let prevSize := ((paragraphs.drop prevStart).take (currentStart - prevStart)).foldl
      (fun acc p => acc + (p.text.length : Int)) 0
    if minSize ≤ prevSize then
      currentStart :: mergeTinyGo paragraphs minSize currentStart rest
    else
      mergeTinyGo paragraphs minSize prevStart rest

/-- Model of mergeTinySections of hierarchy-extractor.ts. -/
def mergeTinySections (boundaries : List Nat) (paragraphs : List Para)
    (minSize : Int) : List Nat :=
  match boundaries with
  | [] => []
  | [b] => [b]
  | b0 :: rest => b0 :: mergeTinyGo paragraphs minSize b0 rest

/-- Title of a synthetic section. -/
def secTitleStr (k n : Nat) : Str :=
  "Section ".data ++ natToStr k ++ " of ".data ++ natToStr n

/-- ChunkRecord stored in the vector table (doc-sync.ts). -/
structure ChunkRecord where
  text : Str
  chunkHash : Str
  chunkIndex : Nat
  start : Int
  endPos : Int
  sectionTitle : Str
  sectionPath : Str
  contextPrefix : Str
  vector : Vec
  deriving DecidableEq, Repr

/-- External calls observable during a sync, in order. -/
inductive Ev where
  | embedBatch (texts : List Str)
  | storeReset
  | storeInsert (records : List ChunkRecord)
  deriving DecidableEq, Repr

/-- Oracle for Embedder.embedBatch: the returned vectors, or a failure. -/
abbrev EmbedFn := List Str → Except Unit (List Vec)

/-- Model of detectSectionsByEmbedding; emits the embedBatch event and
propagates embedder failure. -/
def detectSectionsE (embed : EmbedFn) (sqrtA : Rat → Rat) (text : Str)
    (options : HierarchyOptions) : List Ev × Except Unit (List HeadingNode) :=
  let paragraphs := splitParagraphsM text
  if paragraphs.length ≤ 1 then
    ([], .ok [HeadingNode.mk 1 (secTitleStr 1 1) 0 (text.length : Int) []])
  else
    let texts := paragraphs.map (·.text)
    match embed texts with
    | .error e => ([Ev.embedBatch texts], .error e)
    | .ok vectors =>
      let similarities := (List.range (paragraphs.length - 1)).map
        (fun i => cosineSimilarity sqrtA (vectors.getD i []) (vectors.getD (i + 1) []))
      let threshold :=
        if 0 < similarities.length then
          let mean := similarities.foldl (· + ·) 0 / (similarities.length : Rat)
          let std := sqrtA
            (similarities.foldl (fun a b => a + (b - mean) ^ 2) 0 / (similarities.length : Rat))
          mean - options.simThreshold * std
        else options.simThreshold
      let boundaries := 0 ::
        ((List.range similarities.length).filter
          (fun i => similarities.getD i 0 < threshold)).map (· + 1)
      let mergedBoundaries := mergeTinySections boundaries paragraphs options.minSection
      let totalSections := mergedBoundaries.length
      let nodes := (List.range totalSections).map (fun i =>
        let startIdx := mergedBoundaries.getD i 0
        let endIdx :=
          if i + 1 < totalSections then mergedBoundaries.getD (i + 1) 0
          else paragraphs.length
        let startOffset := (paragraphs.getD startIdx ⟨[], 0, 0⟩).start
        let endOffset :=
          match paragraphs[endIdx - 1]? with
          | some p => p.endPos
          | none => (text.length : Int)
        HeadingNode.mk 1 (secTitleStr (i + 1) totalSections) startOffset endOffset [])
      ([Ev.embedBatch texts], .ok nodes)

/-- Model of positionalSections of hierarchy-extractor.ts. -/
def positionalSections (text : Str) (targetCount : Nat) : List HeadingNode :=
  let count := max 1 (min targetCount ((text.length + 499) / 500))
  let sectionSize := (text.length + count - 1) / count
  (List.range count).map (fun i =>
    let start := i * sectionSize
    let e := min ((i + 1) * sectionSize) text.length
    HeadingNode.mk 1 (secTitleStr (i + 1) count) (start : Int) (e : Int) [])

/-- Minimum of a list of levels, zero on the empty list (unused then). -/
def natListMin : List Nat → Nat
  | [] => 0
  | x :: t => t.foldl min x

/-- Model of the flattenTopLevel helper: only the nodes of the
shallowest level present. -/
def flattenTopLevel (headings : List HeadingNode) : List HeadingNode :=
  match headings with
  | [] => []
  | _ =>
    let minLevel := natListMin (headings.map HeadingNode.level)
    headings.filter (fun h => h.level = minLevel)

/-- Strategy tag of a HierarchyMap. -/
inductive Strategy where
  | heading
  | embeddingSimilarity
  | positional
  deriving DecidableEq, Repr

/-- HierarchyMap of hierarchy-extractor.ts. -/
structure HierarchyMap where
  headings : List HeadingNode
  outline : Str
  documentSummary : Str
  sectionSummaries : List SectionSummary
  strategy : Strategy

/-- Common tail of extractHierarchy: outline, document summary and
section summaries over the shallowest level. -/
def finishHierarchy (text : Str) (options : HierarchyOptions)
    (headings : List HeadingNode) (strategy : Strategy) : HierarchyMap :=
  { headings
    outline := generateOutlineM headings options.outlineDepth
    documentSummary := generateDocSummary text options.docSumMax
    sectionSummaries :=
      generateSectionSummaries text (flattenTopLevel headings) options.secSumMax
    strategy }

/-- Model of extractHierarchy of hierarchy-extractor.ts, with the
optional embedder as an oracle. -/
def extractHierarchyE (embed : Option EmbedFn) (sqrtA : Rat → Rat)
    (text : Str) (options : HierarchyOptions) :
    List Ev × Except Unit HierarchyMap :=
  let flatHeadings := extractHeadings text
  if 0 < flatHeadings.length then
    ([], .ok (finishHierarchy text options
      (buildHierarchyTree flatHeadings text.length) .heading))
  else
    match embed with
    | some e =>
      match detectSectionsE e sqrtA text options with
      | (tr, .error u) => (tr, .error u)
      | (tr, .ok hs) =>
        (tr, .ok (finishHierarchy text options hs .embeddingSimilarity))
    | none =>
      ([], .ok (finishHierarchy text options (positionalSections text 5) .positional))

mutual

/-- Model of findHeadingPath: the chain of nodes whose ranges contain
the offset, following the first hit at each level. -/
def findHeadingPath (offset : Int) : List HeadingNode → List HeadingNode
  | [] => []
  | n :: rest =>
    if n.startOffset ≤ offset ∧ offset < n.endOffset then
      n :: findHeadingPathChildren offset n
    else findHeadingPath offset rest

/-- Descent into the children of a hit node. -/
def findHeadingPathChildren (offset : Int) : HeadingNode → List HeadingNode
  | .mk _ _ _ _ cs => findHeadingPath offset cs

end

/-- Model of buildContextPrefix of hierarchy-extractor.ts. -/
def buildContextPrefix (offset : Int) (headings : List HeadingNode) : Str :=
  let path := findHeadingPath offset headings
  if path.length = 0 then []
  else joinSepStr " > ".data (path.map HeadingNode.title)

-- ── Hierarchy-aware chunking (chunkWithHierarchy of chunker.ts) ──────

mutual

/-- Leaf collection of one node for flattenSections: the node itself
when childless, else the leaves of its children. -/
def flattenNode : HeadingNode → List HeadingNode
  | .mk l t s e cs =>
    if cs.length = 0 then [HeadingNode.mk l t s e cs]
    else flattenSections cs

/-- Model of the flattenSections helper: the leaf sections of the tree
in document order. -/
def flattenSections : List HeadingNode → List HeadingNode
  | [] => []
  | n :: rest => flattenNode n ++ flattenSections rest

end

/-- Model of chunkWithHierarchy of chunker.ts: chunk each leaf section
slice, translate offsets, and attach section metadata and the context
prefix. -/
def chunkWithHierarchyM (text : Str) (hierarchy : HierarchyMap)
    (options : ChunkOptions) : List Chunk :=
  let allSections := flattenSections hierarchy.headings
  let step := fun (st : Nat × List Chunk) (sec : HeadingNode) =>
    let sectionText := jsSlice text sec.startOffset sec.endOffset
    if listLen (jsTrim sectionText) = 0 then st
    else
      let sectionChunks := chunkTextM sectionText options
      let ctx := buildContextPrefix sec.startOffset hierarchy.headings
      sectionChunks.foldl
        (fun (st2 : Nat × List Chunk) c =>
          (st2.1 + 1, st2.2 ++ [{ c with
            index := st2.1
            start := c.start + sec.startOffset
            endPos := c.endPos + sec.startOffset
            sectionTitle := some sec.title
            sectionPath := some ctx
            contextPrefix :=
              if 0 < listLen ctx then some ('[' :: ctx ++ "] ".data) else none }]))
        st
  (allSections.foldl step (0, [])).2

-- ── DocSyncManager (backend/services/doc-sync.ts) ────────────────────

/-- Mutable fields of DocSyncManager.  storedHashes is the insertion
ordered, duplicate-free hash list modelling the Set. -/
structure SyncState where
  lastDocHash : Option Str := none
  storedHashes : List Str := []
  lastHierarchy : Option HierarchyMap := none

/-- Oracles for the external capabilities used during a sync: the
embedder batch call, the vector store insert and reset, and the square
root of the float arithmetic.  An error result models a rejected call
or a cancellation at that suspension point. -/
structure Oracles where
  embedBatch : EmbedFn
  insertRecords : List ChunkRecord → Except Unit Unit
  resetStore : Except Unit Unit
  sqrtA : Rat → Rat

/-- Insertion-ordered deduplication, the model of building a Set from a
list. -/
def dedupKeepFirst (l : List Str) : List Str :=
  l.foldl (fun acc h => if acc.contains h then acc else acc ++ [h]) []

/-- ChunkRecord built from a chunk and its vector (the record literals
of embedAndInsert and fullResync). -/
def recordOf (c : Chunk) (v : Vec) : ChunkRecord :=
  { text := c.text
    chunkHash := c.hash
    chunkIndex := c.index
    start := c.start
    endPos := c.endPos
    sectionTitle := c.sectionTitle.getD []
    sectionPath := c.sectionPath.getD []
    contextPrefix := c.contextPrefix.getD []
    vector := v }

/-- Model of DocSyncManager.embedAndInsert: embed the chunk texts in
one batch, insert the records; nothing at all on an empty list. -/
def embedAndInsertE (O : Oracles) (chunks : List Chunk) :
    List Ev × Except Unit Unit :=
  if chunks.length = 0 then ([], .ok ())
  else
    let texts := chunks.map (·.text)
    match O.embedBatch texts with
    | .error e => ([.embedBatch texts], .error e)
    | .ok vectors =>
      let records := chunks.enum.map (fun ic => recordOf ic.2 (vectors.getD ic.1 []))
      match O.insertRecords records with
      | .error e => ([.embedBatch texts, .storeInsert records], .error e)
      | .ok _ => ([.embedBatch texts, .storeInsert records], .ok ())

/-- Guarded batch embedding used by fullResync: no call at all for an
empty chunk list. -/
def embedIfAny (O : Oracles) (cs : List Chunk) :
    List Ev × Except Unit (List Vec) :=
  if 0 < cs.length then
    let texts := cs.map (·.text)
    match O.embedBatch texts with
    | .error e => ([.embedBatch texts], .error e)
    | .ok vs => ([.embedBatch texts], .ok vs)
  else ([], .ok [])

/-- Model of DocSyncManager.fullResync: embed the genuinely new chunks,
re-embed the previously stored ones, reset the table, then insert the
records for all current chunks (new ones first). -/
def fullResyncE (O : Oracles) (storedHashes : List Str)
    (allChunks : List Chunk) : List Ev × Except Unit Unit :=
  let newChunks := allChunks.filter (fun c => !storedHashes.contains c.hash)
  let existingChunks := allChunks.filter (fun c => storedHashes.contains c.hash)
  match embedIfAny O newChunks with
  | (tr1, .error e) => (tr1, .error e)
  | (tr1, .ok newVectors) =>
    match embedIfAny O existingChunks with
    | (tr2, .error e) => (tr1 ++ tr2, .error e)
    | (tr2, .ok existingVectors) =>
      match O.resetStore with
      | .error e => (tr1 ++ tr2 ++ [.storeReset], .error e)
      | .ok _ =>
        let records :=
          newChunks.enum.map (fun ic => recordOf ic.2 (newVectors.getD ic.1 [])) ++
          existingChunks.enum.map (fun ic => recordOf ic.2 (existingVectors.getD ic.1 []))
        if 0 < records.length then
          match O.insertRecords records with
          | .error e => (tr1 ++ tr2 ++ [.storeReset, .storeInsert records], .error e)
          | .ok _ => (tr1 ++ tr2 ++ [.storeReset, .storeInsert records], .ok ())
        else (tr1 ++ tr2 ++ [.storeReset], .ok ())

/-- Model of DocSyncManager.syncIfNeeded.  The result is the state after
the call, the trace of external calls in order, and the boolean result
or the propagated failure.  State fields persist exactly as far as the
source assigns them before a failing await. -/
def syncIfNeededE (O : Oracles) (s : SyncState) (docText : Str)
    (copts : ChunkOptions) (hopts : HierarchyOptions) :
    SyncState × List Ev × Except Unit Bool :=
  let docHash := hashDocumentM docText
  if s.lastDocHash = some docHash then (s, [], .ok false)
  else
    match extractHierarchyE (some O.embedBatch) O.sqrtA docText hopts with
    | (trH, .error e) => (s, trH, .error e)
    | (trH, .ok hierarchy) =>
      let s1 := { s with lastHierarchy := some hierarchy }
      let chunks := chunkWithHierarchyM docText hierarchy copts
      let newHashes := dedupKeepFirst (chunks.map (·.hash))
      let toInsert := chunks.filter (fun c => !s1.storedHashes.contains c.hash)
      let toDelete := s1.storedHashes.filter (fun h => !newHashes.contains h)
      let step :=
        if 0 < toDelete.length then fullResyncE O s1.storedHashes chunks
        else if 0 < toInsert.length then embedAndInsertE O toInsert
        else ([], .ok ())
      match step with
      | (trS, .error e) => (s1, trH ++ trS, .error e)
      | (trS, .ok _) =>
        ({ s1 with storedHashes := newHashes, lastDocHash := some docHash },
         trH ++ trS, .ok true)

-- ── Summarize orchestrator (backend/services/summarize.ts) ───────────

/-- Agent.generate oracle: system prompt and user content to the
returned content, or a failure. -/
abbrev AgentFn := Str → Str → Except Unit Str

/-- MAP_PROMPT of summarize.ts. -/
def MAP_PROMPT : Str :=
  ("\nYou are an expert document summarizer. \nPlease summarize the following document chunk concisely.\nExtract the most important information, key points, and core arguments.\nReturn a structured but concise summary. Do not output anything else.\n").data

/-- REDUCE_PROMPT of summarize.ts. -/
def REDUCE_PROMPT : Str :=
  ("\nYou are an expert document summarizer.\nYour task is to synthesize the provided text into a single, cohesive, and comprehensive final summary of the entire document.\n\nPlease format your response EXACTLY following this structure:\n\n### Executive Summary\n[A brief 2-3 sentence overview describing what the document is about]\n\n### Key Themes & Highlights\n- **[Theme 1]**: [Brief explanation]\n- **[Theme 2]**: [Brief explanation]\n- **[Theme 3]**: [Brief explanation]\n(Include up to 5 main themes/highlights as bullet points)\n\n### Detailed Breakdown\n[A few paragraphs synthesizing the specific details, flow, and narrative of the document]\n\nProvide ONLY the final summary text following this format, nothing else.\n").data

/-- Failures thrown by summarizeDocument. -/
inductive SumErr where
  | summarizeFailed
  | noChunkSummaries
  | finalSummaryFailed
  deriving DecidableEq, Repr

/-- Body of summarizeDocument of summarize.ts after the chunking step:
the single-chunk fast path runs REDUCE directly, the MAP phase collects
non-empty trimmed summaries and skips failures, and REDUCE combines
them. -/
def summarizeCore (agent : AgentFn) (chunks : List Chunk) : Except SumErr Str :=
  match chunks with
  | [] => .ok []
  | [c] =>
    match agent REDUCE_PROMPT c.text with
    | .ok content => .ok (jsTrim content)
    | .error _ => .error .summarizeFailed
  | _ =>
    let chunkSummaries := chunks.foldl
      (fun acc c =>
        match agent MAP_PROMPT c.text with
        | .ok content =>
          let summary := jsTrim content
          if 0 < listLen summary then acc ++ [summary] else acc
        | .error _ => acc) []
    if chunkSummaries.length = 0 then .error .noChunkSummaries
    else
      let combined := joinSepStr ("\n\n").data (chunkSummaries.enum.map
        (fun is => ("--- Chunk ").data ++ natToStr (is.1 + 1) ++
          (" Summary ---\n").data ++ is.2))
      match agent REDUCE_PROMPT combined with
      | .ok content => .ok (jsTrim content)
      | .error _ => .error .finalSummaryFailed

/-- Model of summarizeDocument of summarize.ts: chunk at 10000 with 400
overlap, then run the map-reduce body. -/
def summarizeE (agent : AgentFn) (text : Str) : Except SumErr Str :=
  summarizeCore agent
    (chunkTextM text { maxChunkSize := some 10000, overlap := some 400 })

-- ── Claim-support definitions ────────────────────────────────────────

/-- Overlap trimming as the specification words it: cut the slice after
the first space whenever the slice contains one; keep the raw slice
only when it has no space.  Stated from the spec sentence, for
comparison with cleanOverlapOf. -/
def cleanOverlapSpec (overlap : Int) (prev : Str) : Str :=
  let overlapText := lastN overlap.toNat prev
  match idxOfChar ' ' overlapText with
  | some firstSpace => overlapText.drop (firstSpace + 1)
  | none => overlapText

/-- Monotonicity of the start offsets over adjacent chunks. -/
def startsChainB : List Chunk → Bool
  | [] => true
  | [_] => true
  | a :: b :: t => decide (a.start ≤ b.start) && startsChainB (b :: t)

/-- Success of every canonical-segment search of the position
assignment loop, with the same advancing cursor. -/
def allLocated (text : Str) : Nat → List Str → Bool
  | _, [] => true
  | sf, c :: rest =>
    match idxOfFrom text c sf with
    | some p => allLocated text (p + 1) rest
    | none => false

/-- Success of every canonical-segment search of chunkText on this
document and option set. -/
def allSegmentsLocated (text : Str) (options : ChunkOptions) : Bool :=
  allLocated text 0 (splitIntoSegments text (options.maxChunkSize.getD 1000))

-- Boolean well-formedness predicates for heading trees (claim C6).

mutual

/-- Bounds invariant: startOffset strictly below endOffset, endOffset
at most the document length, recursively. -/
def boundsOkB (len : Int) : HeadingNode → Bool
  | .mk _ _ s e cs => decide (s < e) && decide (e ≤ len) && boundsOkForest len cs

def boundsOkForest (len : Int) : List HeadingNode → Bool
  | [] => true
  | n :: ns => boundsOkB len n && boundsOkForest len ns

end

/-- Containment of every listed range in the interval from s to e. -/
def rangesIn (s e : Int) : List HeadingNode → Bool
  | [] => true
  | .mk _ _ cs ce _ :: ns => decide (s ≤ cs) && decide (ce ≤ e) && rangesIn s e ns

mutual

/-- Containment invariant: the ranges of the children lie within the
parent's range, recursively. -/
def childWithinB : HeadingNode → Bool
  | .mk _ _ s e cs => rangesIn s e cs && childWithinForest cs

def childWithinForest : List HeadingNode → Bool
  | [] => true
  | n :: ns => childWithinB n && childWithinForest ns

end

/-- Adjacent-sibling disjointness of one forest level: each node ends
no later than the next one starts. -/
def sibChainB : List HeadingNode → Bool
  | [] => true
  | [_] => true
  | a :: b :: t => decide (a.endOffset ≤ b.startOffset) && sibChainB (b :: t)

mutual

/-- Sibling invariant applied on every level of the tree. -/
def siblingsOkB : HeadingNode → Bool
  | .mk _ _ _ _ cs => sibChainB cs && siblingsOkForest cs

def siblingsOkForest : List HeadingNode → Bool
  | [] => true
  | n :: ns => siblingsOkB n && siblingsOkForest ns

end

/-- Strict level dominance of a parent level over listed nodes. -/
def levelsAbove (p : Nat) : List HeadingNode → Bool
  | [] => true
  | .mk l _ _ _ _ :: ns => decide (p < l) && levelsAbove p ns

mutual

/-- Level invariant: levels strictly increase on every root-to-leaf
path. -/
def levelsIncB : HeadingNode → Bool
  | .mk l _ _ _ cs => levelsAbove l cs && levelsIncForest cs

def levelsIncForest : List HeadingNode → Bool
  | [] => true
  | n :: ns => levelsIncB n && levelsIncForest ns

end

/-- Conjunction of the four HeadingNode invariants of the data model:
bounds, containment, sibling disjointness (also between roots), and
strictly increasing levels. -/
def headingForestWf (len : Int) (hs : List HeadingNode) : Bool :=
  boundsOkForest len hs && childWithinForest hs && sibChainB hs &&
    siblingsOkForest hs && levelsIncForest hs

/-- Coherence of assigned end offsets against a closing bound: each end
offset is the offset of the next same-or-higher-level entry, else the
bound. -/
def EndsCoherent (bound : Nat) : List FlatHE → Prop
  | [] => True
  | e :: post =>
    (e.endOffset = match post.find? (fun x => x.level ≤ e.level) with
      | some x => x.offset
      | none => bound) ∧ EndsCoherent bound post

/-- HierarchyMap produced by the heading strategy. -/
def headingHierarchy (text : Str) (options : HierarchyOptions) : HierarchyMap :=
  finishHierarchy text options
    (buildHierarchyTree (extractHeadings text) text.length) .heading

/-- Embedder-call events of a trace. -/
def isEmbedEv : Ev → Bool
  | .embedBatch _ => true
  | _ => false

/-- Store-reset events of a trace. -/
def isResetEv : Ev → Bool
  | .storeReset => true
  | _ => false

/-- Headings of an extraction result, for closed statements. -/
def hmHeadingsOf (r : Except Unit HierarchyMap) : List HeadingNode :=
  match r with
  | .ok m => m.headings
  | .error _ => []

/-- Outline of an extraction result, for closed statements. -/
def hmOutlineOf (r : Except Unit HierarchyMap) : Str :=
  match r with
  | .ok m => m.outline
  | .error _ => []

/-- Oracles whose external calls all succeed; the embedder returns
empty vectors. -/
def okOracles : Oracles :=
  { embedBatch := fun ts => .ok (ts.map (fun _ => []))
    insertRecords := fun _ => .ok ()
    resetStore := .ok ()
    sqrtA := fun _ => 0 }

/-- Oracles whose embedder rejects every call. -/
def failOracles : Oracles :=
  { okOracles with embedBatch := fun _ => .error () }

/-- Agent oracle that always answers whitespace. -/
def wsAgent : AgentFn := fun _ _ => .ok [' ']

/-- Two small chunks, fixture for the map-reduce witness. -/
def chunkA : Chunk :=
  { index := 0, text := ['a'], start := 0, endPos := 1, hash := ['a'] }

/-- Second fixture chunk. -/
def chunkB : Chunk :=
  { index := 1, text := ['b'], start := 2, endPos := 3, hash := ['b'] }

/-- Fixture document for the full-resync scenario. -/
def c3Text : Str := ("# A\n\nHello.").data

/-- Fixture sync state holding one stale hash. -/
def c3State : SyncState := { storedHashes := [("z").data] }

/-- Chunks of the fixture document under the heading hierarchy. -/
def c3Chunks : List Chunk := chunkWithHierarchyM c3Text (headingHierarchy c3Text {}) {}

-- ════════════════════════ Theorems ════════════════════════

theorem listLenAux_eq (l : List α) : ∀ acc, listLenAux acc l = acc + l.length := by
  induction l with
  | nil => intro acc; simp [listLenAux]
  | cons a t ih => intro acc; simp [listLenAux, ih]; omega

theorem listLen_eq_length (l : List α) : listLen l = l.length := by
  simp [listLen, listLenAux_eq]

-- ── Chunker helper lemmas ────────────────────────────────────────────

theorem idxAux_some (pat : Str) (hp : pat ≠ []) :
    ∀ (s : Str) (i p : Nat), idxAux pat s i = some p →
      i ≤ p ∧ p + pat.length ≤ i + s.length := by
  intro s
  induction s with
  | nil =>
    intro i p h
    have hne : pat.isEmpty = false := by
      cases pat with
      | nil => exact absurd rfl hp
      | cons a t => rfl
    simp [idxAux, hne] at h
  | cons c t ih =>
    intro i p h
    unfold idxAux at h
    by_cases hpre : pat.isPrefixOf (c :: t)
    · simp [hpre] at h
      subst h
      have hlen := (List.isPrefixOf_iff_prefix.mp hpre).length_le
      constructor
      · exact Nat.le_refl _
      · simpa using Nat.add_le_add_left hlen i
    · simp [hpre] at h
      obtain ⟨h1, h2⟩ := ih (i + 1) p h
      constructor
      · omega
      · simp only [List.length_cons]
        omega

theorem idxOfFrom_some (text pat : Str) (start p : Nat) (hp : pat ≠ [])
    (h : idxOfFrom text pat start = some p) :
    start ≤ text.length ∧ start ≤ p ∧ p + pat.length ≤ text.length := by
  unfold idxOfFrom at h
  rw [listLen_eq_length] at h
  have hs : start ≤ text.length := by
    by_contra hgt
    push_neg at hgt
    have hm : min start text.length = text.length := by omega
    rw [hm, List.drop_length] at h
    have hne : pat.isEmpty = false := by
      cases pat with
      | nil => exact absurd rfl hp
      | cons a t => rfl
    simp [idxAux, hne] at h
  have hm : min start text.length = start := by omega
  rw [hm] at h
  obtain ⟨h1, h2⟩ := idxAux_some pat hp _ _ _ h
  refine ⟨hs, h1, ?_⟩
  rw [List.length_drop] at h2
  omega

theorem mergeSegs_mem_ne_nil (maxSize : Int) :
    ∀ (l : List Str) (buffer s : Str), s ∈ mergeSegs maxSize buffer l → s ≠ [] := by
  intro l
  induction l with
  | nil =>
    intro buffer s hs
    unfold mergeSegs at hs
    by_cases hb : 0 < listLen buffer
    · simp [hb] at hs
      subst hs
      rw [listLen_eq_length] at hb
      exact List.ne_nil_of_length_pos hb
    · simp [hb] at hs
  | cons seg rest ih =>
    intro buffer s hs
    unfold mergeSegs at hs
    split at hs
    · rename_i hcond
      rcases List.mem_cons.mp hs with h1 | h2
      · subst h1
        rw [listLen_eq_length] at hcond
        exact List.ne_nil_of_length_pos hcond.2
      · exact ih _ _ h2
    · exact ih _ _ hs

theorem splitIntoSegments_ne_nil (text : Str) (maxSize : Int) :
    ∀ s ∈ splitIntoSegments text maxSize, s ≠ [] := by
  intro s hs
  unfold splitIntoSegments at hs
  exact mergeSegs_mem_ne_nil _ _ _ _ hs

theorem assignPos_bounds (text : Str) :
    ∀ (pairs : List (Str × Str)) (i sf : Nat),
      sf ≤ text.length → (∀ pr ∈ pairs, pr.2 ≠ []) →
      ∀ c ∈ assignPos text i sf pairs,
        0 ≤ c.start ∧ c.start ≤ c.endPos ∧ c.endPos ≤ (text.length : Int) := by
  intro pairs
  induction pairs with
  | nil => intro i sf _ _ c hc; simp [assignPos] at hc
  | cons pr rest ih =>
    intro i sf hsf hne c hc
    obtain ⟨ov, canon⟩ := pr
    have hcanon : canon ≠ [] := hne (ov, canon) (List.mem_cons_self _ _)
    unfold assignPos at hc
    cases h : idxOfFrom text canon sf with
    | some p =>
      rw [h] at hc
      obtain ⟨_, hle, hbound⟩ := idxOfFrom_some text canon sf p hcanon h
      have hcl : 0 < canon.length := List.length_pos.mpr hcanon
      rcases List.mem_cons.mp hc with h1 | h2
      · subst h1
        dsimp only
        rw [listLen_eq_length]
        refine ⟨?_, ?_, ?_⟩ <;> omega
      · exact ih (i + 1) (p + 1) (by omega) (fun x hx => hne x (List.mem_cons_of_mem _ hx)) c h2
    | none =>
      rw [h] at hc
      rcases List.mem_cons.mp hc with h1 | h2
      · subst h1
        dsimp only
        refine ⟨?_, ?_, ?_⟩ <;> omega
      · exact ih (i + 1) sf hsf (fun x hx => hne x (List.mem_cons_of_mem _ hx)) c h2

theorem startsChainB_cons (a : Chunk) (l : List Chunk) (hlb : ∀ c ∈ l, a.start ≤ c.start)
    (hch : startsChainB l = true) : startsChainB (a :: l) = true := by
  cases l with
  | nil => rfl
  | cons b t =>
    have hab : a.start ≤ b.start := hlb b (List.mem_cons_self _ _)
    simp [startsChainB, hab, hch]

theorem assignPos_chain (text : Str) :
    ∀ (pairs : List (Str × Str)) (i sf : Nat),
      (∀ pr ∈ pairs, pr.2 ≠ []) →
      allLocated text sf (pairs.map Prod.snd) = true →
      (∀ c ∈ assignPos text i sf pairs, (sf : Int) ≤ c.start) ∧
      startsChainB (assignPos text i sf pairs) = true := by
  intro pairs
  induction pairs with
  | nil =>
    intro i sf _ _
    refine ⟨?_, ?_⟩
    · intro c hc; simp [assignPos] at hc
    · simp [assignPos, startsChainB]
  | cons pr rest ih =>
    intro i sf hne hloc
    obtain ⟨ov, canon⟩ := pr
    have hcanon : canon ≠ [] := hne (ov, canon) (List.mem_cons_self _ _)
    unfold allLocated at hloc
    simp only [List.map_cons] at hloc
    cases h : idxOfFrom text canon sf with
    | none => rw [h] at hloc; simp at hloc
    | some p =>
      rw [h] at hloc
      obtain ⟨_, hle, _⟩ := idxOfFrom_some text canon sf p hcanon h
      obtain ⟨ihlb, ihch⟩ := ih (i + 1) (p + 1)
        (fun x hx => hne x (List.mem_cons_of_mem _ hx)) hloc
      constructor
      · intro c hc
        unfold assignPos at hc
        rw [h] at hc
        rcases List.mem_cons.mp hc with h1 | h2
        · subst h1; dsimp only; exact_mod_cast hle
        · have := ihlb c h2; push_cast at this ⊢; omega
      · unfold assignPos
        rw [h]
        refine startsChainB_cons _ _ ?_ ihch
        intro c hc
        have := ihlb c hc
        dsimp only
        push_cast at this ⊢
        omega

theorem applyOverlap_length (segments : List Str) (overlap : Int) :
    (applyOverlap segments overlap).length = segments.length := by
  unfold applyOverlap
  split
  · rfl
  · cases segments with
    | nil => rfl
    | cons s0 rest =>
      simp [List.length_zip]

theorem zip_self_tail_get (i : Nat) :
    ∀ (s0 : Str) (rest : List Str) (prev cur : Str),
      (s0 :: rest)[i]? = some prev → rest[i]? = some cur →
      (List.zip (s0 :: rest) rest)[i]? = some (prev, cur) := by
  induction i with
  | zero =>
    intro s0 rest prev cur h1 h2
    cases rest with
    | nil => simp at h2
    | cons r rest' =>
      simp at h1 h2
      subst h1; subst h2
      simp [List.zip_cons_cons]
  | succ i ih =>
    intro s0 rest prev cur h1 h2
    cases rest with
    | nil => simp at h2
    | cons r rest' =>
      simp only [List.zip_cons_cons, List.getElem?_cons_succ] at h1 h2 ⊢
      exact ih r rest' prev cur h1 h2

-- ── Claim C9 ─────────────────────────────────────────────────────────

/-- C9 (confirmed): on the input consisting of the two paragraphs
joined by a blank line under maxChunkSize 50 and overlap 0, chunkText
returns exactly one chunk whose text is the whole input, with start 0,
end 22, and hash the SHA-256 of the chunk text (the literal digest is
also pinned, and 22 is the input length). -/
theorem c9_chunkText_s1 :
    chunkTextM ("A paragraph.\n\nAnother.").data
        { maxChunkSize := some 50, overlap := some 0 } =
      [{ index := 0, text := ("A paragraph.\n\nAnother.").data, start := 0,
         endPos := 22, hash := sha256M ("A paragraph.\n\nAnother.").data }] ∧
    sha256M ("A paragraph.\n\nAnother.").data =
      ("bbbad801cb99813daf56d4e747709add1b5dc58c82573ebddf43a9bbd0ecfa94").data ∧
    ("A paragraph.\n\nAnother.").data.length = 22 := by
  decide

-- ── Claim C8 ─────────────────────────────────────────────────────────

/-- C8 counterexample: when the overlap slice starts with a space (the
first space is at index 0), the code keeps the raw slice, while the
claimed rule keeps only the characters after the first space; the two
emitted texts differ on the segments ab-cd and x with overlap 3. -/
theorem c8_counterexample :
    applyOverlap [("ab cd").data, ("x").data] 3 =
      [("ab cd").data, (" cd x").data] ∧
    cleanOverlapSpec 3 ("ab cd").data ++ ' ' :: ("x").data = ("cd x").data ∧
    ¬ ((" cd x").data = ("cd x").data) := by
  decide

/-- C8 (corrected): for positive overlap the first segment is emitted
unchanged, lengths are preserved, and every later segment is the
previous segment's overlap slice cut after the first space only when
that space sits at a positive index (a slice starting with a space, or
without any space, is kept raw), joined to the current segment by one
space. -/
theorem c8_applyOverlap_characterization (segments : List Str) (overlap : Int)
    (h : 0 < overlap) :
    (applyOverlap segments overlap).length = segments.length ∧
    (applyOverlap segments overlap)[0]? = segments[0]? ∧
    (∀ i prev cur, segments[i]? = some prev → segments[i + 1]? = some cur →
      (applyOverlap segments overlap)[i + 1]? =
        some (cleanOverlapOf overlap prev ++ ' ' :: cur)) := by
  refine ⟨applyOverlap_length segments overlap, ?_, ?_⟩
  all_goals
    unfold applyOverlap
    rw [listLen_eq_length]
  · split
    · rfl
    · rename_i hcond
      push_neg at hcond
      cases segments with
      | nil => rfl
      | cons s0 rest => simp
  · intro i prev cur h1 h2
    split
    · rename_i hcond
      rcases hcond with hneg | hshort
      · omega
      · exfalso
        have : segments.length ≤ i + 1 := by omega
        rw [List.getElem?_eq_none this] at h2
        exact Option.noConfusion h2
    · cases segments with
      | nil => simp at h1
      | cons s0 rest =>
        have hz := zip_self_tail_get i s0 rest prev cur h1 (by simpa using h2)
        simp only [List.getElem?_cons_succ, List.getElem?_map, hz]
        rfl

/-- C8 witness: the characterization applied to two concrete segments,
with the second emitted chunk spelled out. -/
theorem c8_applyOverlap_characterization_witness :
    (applyOverlap [("Hello there.").data, ("x").data] 3)[1]? =
      some (cleanOverlapOf 3 ("Hello there.").data ++ ' ' :: ("x").data) :=
  (c8_applyOverlap_characterization [("Hello there.").data, ("x").data] 3
    (by decide)).2.2 0 _ _ (by decide) (by decide)

-- ── Claim C5 ─────────────────────────────────────────────────────────

/-- C5 counterexample: a document where the second merged segment
cannot be located verbatim (its paragraphs were separated by a
whitespace-bearing blank line) has chunk starts 1 then 0, so the starts
of the returned chunks are not monotone. -/
theorem c5_monotonicity_counterexample :
    ((chunkTextM (" A\n\nB\n \nC\n \nD").data
        { maxChunkSize := some 6, overlap := some 0 }).map (fun c => c.start) =
      [1, 0]) ∧
    ¬ startsChainB
        (chunkTextM (" A\n\nB\n \nC\n \nD").data
          { maxChunkSize := some 6, overlap := some 0 }) = true := by
  decide

/-- C5 (corrected): every chunk satisfies 0 ≤ start ≤ end ≤ length of
the text, where a failed canonical-segment search clamps start to 0 and
sets end to the search cursor; the monotonicity of starts over adjacent
chunks holds under the additional condition that every canonical
segment is located (it can fail otherwise, see the counterexample). -/
theorem c5_chunkText_offset_invariants (text : Str) (options : ChunkOptions) :
    (∀ c ∈ chunkTextM text options,
       0 ≤ c.start ∧ c.start ≤ c.endPos ∧ c.endPos ≤ (text.length : Int)) ∧
    (allSegmentsLocated text options = true →
       startsChainB (chunkTextM text options) = true) := by
  constructor
  · intro c hc
    unfold chunkTextM at hc
    refine assignPos_bounds text _ 0 0 (Nat.zero_le _) ?_ c hc
    intro pr hpr
    exact splitIntoSegments_ne_nil text _ pr.2 (List.of_mem_zip hpr).2
  · intro hloc
    unfold chunkTextM
    refine (assignPos_chain text _ 0 0 ?_ ?_).2
    · intro pr hpr
      exact splitIntoSegments_ne_nil text _ pr.2 (List.of_mem_zip hpr).2
    · rw [List.map_snd_zip]
      · exact hloc
      · rw [applyOverlap_length]

/-- C5 witness: both offset invariants evaluated on a concrete
two-chunk document whose segments are all located. -/
theorem c5_chunkText_offset_invariants_witness :
    allSegmentsLocated ("Hello there.\n\nGoodbye now.").data
      { maxChunkSize := some 10, overlap := some 0 } = true ∧
    startsChainB
      (chunkTextM ("Hello there.\n\nGoodbye now.").data
        { maxChunkSize := some 10, overlap := some 0 }) = true :=
  ⟨by decide,
   (c5_chunkText_offset_invariants ("Hello there.\n\nGoodbye now.").data
     { maxChunkSize := some 10, overlap := some 0 }).2 (by decide)⟩

-- ── Claim C10 ────────────────────────────────────────────────────────

theorem summarize_map_fold_nil (agent : AgentFn) :
    ∀ (cs : List Chunk),
      (∀ c ∈ cs, ∀ s, agent MAP_PROMPT c.text = .ok s → jsTrim s = []) →
      cs.foldl
        (fun acc c =>
          match agent MAP_PROMPT c.text with
          | .ok content =>
            let summary := jsTrim content
            if 0 < listLen summary then acc ++ [summary] else acc
          | .error _ => acc) [] = [] := by
  have hgen : ∀ (cs : List Chunk) (acc : List Str),
      (∀ c ∈ cs, ∀ s, agent MAP_PROMPT c.text = .ok s → jsTrim s = []) →
      cs.foldl
        (fun acc c =>
          match agent MAP_PROMPT c.text with
          | .ok content =>
            let summary := jsTrim content
            if 0 < listLen summary then acc ++ [summary] else acc
          | .error _ => acc) acc = acc := by
    intro cs
    induction cs with
    | nil => intro acc _; rfl
    | cons c rest ih =>
      intro acc hws
      simp only [List.foldl_cons]
      have hstep :
          (match agent MAP_PROMPT c.text with
           | .ok content =>
             let summary := jsTrim content
             if 0 < listLen summary then acc ++ [summary] else acc
           | .error _ => acc) = acc := by
        cases h : agent MAP_PROMPT c.text with
        | ok content =>
          have := hws c (List.mem_cons_self _ _) content h
          simp [this, listLen_eq_length]
        | error e => rfl
      rw [hstep]
      exact ih acc (fun x hx => hws x (List.mem_cons_of_mem _ hx))
  intro cs hws
  exact hgen cs [] hws

/-- C10 (confirmed): in the map-reduce body of summarizeDocument run on
more than one chunk, a MAP response that trims to the empty string is
dropped, so when every successful MAP response trims to whitespace the
collected summaries are empty and the function throws the
no-chunk-summaries error; summarizeDocument itself is the body applied
to the chunking of the text. -/
theorem c10_summarize_whitespace_map_errors (agent : AgentFn)
    (chunks : List Chunk) (h2 : 1 < chunks.length)
    (hws : ∀ c ∈ chunks, ∀ s, agent MAP_PROMPT c.text = .ok s → jsTrim s = []) :
    summarizeCore agent chunks = .error .noChunkSummaries ∧
    ∀ text : Str,
      chunkTextM text { maxChunkSize := some 10000, overlap := some 400 } = chunks →
      summarizeE agent text = .error .noChunkSummaries := by
  have hcore : summarizeCore agent chunks = .error .noChunkSummaries := by
    match chunks, h2 with
    | c1 :: c2 :: rest, _ =>
      unfold summarizeCore
      rw [summarize_map_fold_nil agent (c1 :: c2 :: rest) hws]
      rfl
  refine ⟨hcore, ?_⟩
  intro text htext
  unfold summarizeE
  rw [htext]
  exact hcore

/-- C10 witness: two concrete chunks and the always-whitespace agent
make the body fail with the no-chunk-summaries error even though every
MAP call succeeded. -/
theorem c10_summarize_whitespace_map_errors_witness :
    summarizeCore wsAgent [chunkA, chunkB] = .error .noChunkSummaries :=
  (c10_summarize_whitespace_map_errors wsAgent [chunkA, chunkB] (by decide)
    (by intro c _ s h
        have hs : (' ' :: []) = s := by
          simpa [wsAgent] using h
        subst hs
        decide)).1

-- ── Doc-sync helper lemmas ───────────────────────────────────────────

theorem sync_sets_hash (O : Oracles) (s : SyncState) (docText : Str)
    (copts : ChunkOptions) (hopts : HierarchyOptions) (b : Bool)
    (h : (syncIfNeededE O s docText copts hopts).2.2 = .ok b) :
    (syncIfNeededE O s docText copts hopts).1.lastDocHash =
      some (hashDocumentM docText) := by
  by_cases hfast : s.lastDocHash = some (hashDocumentM docText)
  · simp [syncIfNeededE, hfast]
  · rcases hE : extractHierarchyE (some O.embedBatch) O.sqrtA docText hopts with ⟨tr, exc⟩
    cases exc with
    | error e =>
      exfalso
      simp [syncIfNeededE, hfast, hE] at h
    | ok hier =>
      simp only [syncIfNeededE, hfast, if_neg, hE] at h ⊢
      rcases hS : (if 0 < (s.storedHashes.filter (fun x =>
            !(dedupKeepFirst ((chunkWithHierarchyM docText hier copts).map (·.hash))).contains x)).length
          then fullResyncE O s.storedHashes (chunkWithHierarchyM docText hier copts)
          else if 0 < ((chunkWithHierarchyM docText hier copts).filter
              (fun c => !s.storedHashes.contains c.hash)).length
          then embedAndInsertE O ((chunkWithHierarchyM docText hier copts).filter
              (fun c => !s.storedHashes.contains c.hash))
          else ([], .ok ())) with ⟨trS, exc2⟩
      simp only [hS] at h ⊢
      cases exc2 with
      | error e => simp at h
      | ok u => simp

-- ── Claim C2 ─────────────────────────────────────────────────────────

/-- C2 (confirmed): after a successfully completed syncIfNeeded on a
text, a second syncIfNeeded on the identical text returns false, leaves
the manager state untouched, and performs no external call at all (its
trace is empty). -/
theorem c2_sync_second_call_noop (O : Oracles) (s : SyncState) (docText : Str)
    (copts : ChunkOptions) (hopts : HierarchyOptions) (b : Bool)
    (h : (syncIfNeededE O s docText copts hopts).2.2 = .ok b) :
    syncIfNeededE O (syncIfNeededE O s docText copts hopts).1 docText copts hopts =
      ((syncIfNeededE O s docText copts hopts).1, [], .ok false) := by
  have hh := sync_sets_hash O s docText copts hopts b h
  generalize hgen : (syncIfNeededE O s docText copts hopts).1 = s1 at hh ⊢
  simp [syncIfNeededE, hh]

/-- C2 witness: a first successful sync of a concrete document, and the
second call on the same text returning false with an empty trace. -/
theorem c2_sync_second_call_noop_witness :
    (syncIfNeededE okOracles {} ("Hi.").data {} {}).2.2 = .ok true ∧
    syncIfNeededE okOracles (syncIfNeededE okOracles {} ("Hi.").data {} {}).1
        ("Hi.").data {} {} =
      ((syncIfNeededE okOracles {} ("Hi.").data {} {}).1, [], .ok false) :=
  ⟨by decide, c2_sync_second_call_noop okOracles {} ("Hi.").data {} {} true (by decide)⟩

-- ── Claim C4 ─────────────────────────────────────────────────────────

/-- C4 (confirmed): bookkeeping is commit-last: when any external call
of a sync fails or is cancelled, storedHashes and lastDocHash keep the
values they had before the call; on a fast-path return the state is
untouched, and a successful re-sync sets lastDocHash to the document
hash (the update happening only after the store step returned). -/
theorem c4_sync_bookkeeping_atomic (O : Oracles) (s : SyncState) (docText : Str)
    (copts : ChunkOptions) (hopts : HierarchyOptions) :
    (∀ e, (syncIfNeededE O s docText copts hopts).2.2 = .error e →
       (syncIfNeededE O s docText copts hopts).1.storedHashes = s.storedHashes ∧
       (syncIfNeededE O s docText copts hopts).1.lastDocHash = s.lastDocHash) ∧
    ((syncIfNeededE O s docText copts hopts).2.2 = .ok false →
       (syncIfNeededE O s docText copts hopts).1 = s) ∧
    ((syncIfNeededE O s docText copts hopts).2.2 = .ok true →
       (syncIfNeededE O s docText copts hopts).1.lastDocHash =
         some (hashDocumentM docText)) := by
  refine ⟨?_, ?_, fun h => sync_sets_hash O s docText copts hopts true h⟩
  · intro e herr
    by_cases hfast : s.lastDocHash = some (hashDocumentM docText)
    · simp [syncIfNeededE, hfast] at herr
    · rcases hE : extractHierarchyE (some O.embedBatch) O.sqrtA docText hopts with ⟨tr, exc⟩
      cases exc with
      | error e2 =>
        simp [syncIfNeededE, hfast, hE]
      | ok hier =>
        simp only [syncIfNeededE, hfast, if_neg, hE] at herr ⊢
        rcases hS : (if 0 < (s.storedHashes.filter (fun x =>
              !(dedupKeepFirst ((chunkWithHierarchyM docText hier copts).map (·.hash))).contains x)).length
            then fullResyncE O s.storedHashes (chunkWithHierarchyM docText hier copts)
            else if 0 < ((chunkWithHierarchyM docText hier copts).filter
                (fun c => !s.storedHashes.contains c.hash)).length
            then embedAndInsertE O ((chunkWithHierarchyM docText hier copts).filter
                (fun c => !s.storedHashes.contains c.hash))
            else ([], .ok ())) with ⟨trS, exc2⟩
        simp only [hS] at herr ⊢
        cases exc2 with
        | error e3 => simp
        | ok u => simp at herr
  · intro hfalse
    by_cases hfast : s.lastDocHash = some (hashDocumentM docText)
    · simp [syncIfNeededE, hfast]
    · exfalso
      rcases hE : extractHierarchyE (some O.embedBatch) O.sqrtA docText hopts with ⟨tr, exc⟩
      cases exc with
      | error e2 =>
        simp [syncIfNeededE, hfast, hE] at hfalse
      | ok hier =>
        simp only [syncIfNeededE, hfast, if_neg, hE] at hfalse
        rcases hS : (if 0 < (s.storedHashes.filter (fun x =>
              !(dedupKeepFirst ((chunkWithHierarchyM docText hier copts).map (·.hash))).contains x)).length
            then fullResyncE O s.storedHashes (chunkWithHierarchyM docText hier copts)
            else if 0 < ((chunkWithHierarchyM docText hier copts).filter
                (fun c => !s.storedHashes.contains c.hash)).length
            then embedAndInsertE O ((chunkWithHierarchyM docText hier copts).filter
                (fun c => !s.storedHashes.contains c.hash))
            else ([], .ok ())) with ⟨trS, exc2⟩
        simp only [hS] at hfalse
        cases exc2 with
        | error e3 => simp at hfalse
        | ok u => simp at hfalse

/-- C4 witness: a sync whose embedder call fails leaves the bookkeeping
of the concrete starting state unchanged. -/
theorem c4_sync_bookkeeping_atomic_witness :
    (syncIfNeededE failOracles {} ("Hi.").data {} {}).2.2 = .error () ∧
    ((syncIfNeededE failOracles {} ("Hi.").data {} {}).1.storedHashes =
        (({} : SyncState)).storedHashes ∧
     (syncIfNeededE failOracles {} ("Hi.").data {} {}).1.lastDocHash =
        (({} : SyncState)).lastDocHash) :=
  ⟨by decide,
   (c4_sync_bookkeeping_atomic failOracles {} ("Hi.").data {} {}).1 () (by decide)⟩

-- ── Claim C1 ─────────────────────────────────────────────────────────

theorem extractHierarchyE_of_heads (embed : Option EmbedFn) (sq : Rat → Rat)
    (text : Str) (opts : HierarchyOptions) (h : extractHeadings text ≠ []) :
    extractHierarchyE embed sq text opts = ([], .ok (headingHierarchy text opts)) := by
  unfold extractHierarchyE headingHierarchy
  rw [if_pos (List.length_pos.mpr h)]

theorem mem_dedupKeepFirst (l : List Str) (x : Str) :
    x ∈ dedupKeepFirst l ↔ x ∈ l := by
  have hgen : ∀ (l acc : List Str) (x : Str),
      (x ∈ l.foldl (fun acc h => if acc.contains h then acc else acc ++ [h]) acc) ↔
        (x ∈ acc ∨ x ∈ l) := by
    intro l
    induction l with
    | nil => intro acc x; simp
    | cons h t ih =>
      intro acc x
      simp only [List.foldl_cons]
      by_cases hc : acc.contains h
      · rw [if_pos hc, ih]
        have hmem : h ∈ acc := by simpa using hc
        constructor
        · rintro (hx | hx)
          · exact Or.inl hx
          · exact Or.inr (List.mem_cons_of_mem _ hx)
        · rintro (hx | hx)
          · exact Or.inl hx
          · rcases List.mem_cons.mp hx with rfl | hx
            · exact Or.inl hmem
            · exact Or.inr hx
      · rw [if_neg hc, ih]
        simp [or_assoc, List.mem_cons]
  rw [dedupKeepFirst, hgen]
  simp

theorem embedAndInsertE_trace (O : Oracles) (cs : List Chunk) (h : cs ≠ []) :
    (embedAndInsertE O cs).1.filter isEmbedEv = [Ev.embedBatch (cs.map (·.text))] ∧
    (embedAndInsertE O cs).1.filter isResetEv = [] := by
  unfold embedAndInsertE
  rw [if_neg (by simp [h])]
  cases hB : O.embedBatch (cs.map (·.text)) with
  | error e => simp only [hB]; simp [isEmbedEv, isResetEv]
  | ok vs =>
    cases hI : O.insertRecords (cs.enum.map (fun ic => recordOf ic.2 (vs.getD ic.1 []))) with
    | error e => simp only [hB, hI]; simp [isEmbedEv, isResetEv]
    | ok u => simp only [hB, hI]; simp [isEmbedEv, isResetEv]

/-- C1 (corrected): starting from a state whose stored hashes all still
occur among the current document's chunk hashes (no deletions), and
assuming the document hash changed, the document has markdown-style
headings (so the hierarchy step makes no embedder call of its own),
and at least one chunk is new, syncIfNeeded makes exactly one
Embedder.embedBatch call, whose input is exactly the texts of the
chunks whose hashes were not already stored, and never calls
VectorStore.reset.  Without the heading assumption the
embedding-similarity strategy may add a paragraph embedBatch call, and
without a new chunk no embedBatch call happens at all (see the
counterexample). -/
theorem c1_sync_append_embeds_only_new (O : Oracles) (s : SyncState) (text : Str)
    (copts : ChunkOptions) (hopts : HierarchyOptions)
    (hHead : extractHeadings text ≠ [])
    (hFast : s.lastDocHash ≠ some (hashDocumentM text))
    (hSub : ∀ h ∈ s.storedHashes,
      h ∈ (chunkWithHierarchyM text (headingHierarchy text hopts) copts).map Chunk.hash)
    (hNew : (chunkWithHierarchyM text (headingHierarchy text hopts) copts).filter
        (fun c => !s.storedHashes.contains c.hash) ≠ []) :
    (syncIfNeededE O s text copts hopts).2.1.filter isEmbedEv =
      [Ev.embedBatch (((chunkWithHierarchyM text (headingHierarchy text hopts) copts).filter
        (fun c => !s.storedHashes.contains c.hash)).map (·.text))] ∧
    (syncIfNeededE O s text copts hopts).2.1.filter isResetEv = [] := by
  have hDel : (s.storedHashes.filter (fun h =>
      !(dedupKeepFirst ((chunkWithHierarchyM text (headingHierarchy text hopts) copts).map
        (·.hash))).contains h)) = [] := by
    rw [List.filter_eq_nil_iff]
    intro a ha
    have hmem : a ∈ dedupKeepFirst ((chunkWithHierarchyM text (headingHierarchy text hopts)
        copts).map (·.hash)) := by
      rw [mem_dedupKeepFirst]
      exact hSub a ha
    simpa using hmem
  simp only [syncIfNeededE, if_neg hFast,
    extractHierarchyE_of_heads (some O.embedBatch) O.sqrtA text hopts hHead]
  simp only [hDel, List.length_nil, lt_irrefl, if_false,
    if_pos (List.length_pos.mpr hNew)]
  rcases hS : embedAndInsertE O ((chunkWithHierarchyM text (headingHierarchy text hopts)
      copts).filter (fun c => !s.storedHashes.contains c.hash)) with ⟨trS, exc2⟩
  have htr := embedAndInsertE_trace O ((chunkWithHierarchyM text (headingHierarchy text hopts)
      copts).filter (fun c => !s.storedHashes.contains c.hash)) hNew
  rw [hS] at htr
  cases exc2 with
  | error e => simpa using htr
  | ok u => simpa using htr

/-- C1 witness: a heading-bearing document synced into an empty state
makes exactly one embedBatch call with the single new chunk's text and
no reset. -/
theorem c1_sync_append_embeds_only_new_witness :
    (syncIfNeededE okOracles {} ("# A\n\nHello.").data {} {}).2.1.filter isEmbedEv =
      [Ev.embedBatch ((((chunkWithHierarchyM ("# A\n\nHello.").data
        (headingHierarchy ("# A\n\nHello.").data {}) {})).filter
        (fun c => !(({} : SyncState)).storedHashes.contains c.hash)).map (·.text))] ∧
    (syncIfNeededE okOracles {} ("# A\n\nHello.").data {} {}).2.1.filter isResetEv = [] :=
  c1_sync_append_embeds_only_new okOracles {} ("# A\n\nHello.").data {} {}
    (by decide) (by decide) (by intro h hh; simp at hh) (by decide)

/-- C1 counterexample: syncing a document and then a whitespace-edited
variant with the identical single chunk satisfies the only-adds
condition of the claim (every stored hash still occurs), the second
sync does work (returns true), and yet it makes zero embedBatch calls,
not exactly one. -/
theorem c1_counterexample :
    ((syncIfNeededE okOracles (syncIfNeededE okOracles {} ("Hi.").data {} {}).1
        ("Hi.\n").data {} {}).2.2 = .ok true) ∧
    ((syncIfNeededE okOracles {} ("Hi.").data {} {}).1.storedHashes.all
      (fun h => (syncIfNeededE okOracles (syncIfNeededE okOracles {} ("Hi.").data {} {}).1
        ("Hi.\n").data {} {}).1.storedHashes.contains h) = true) ∧
    ((syncIfNeededE okOracles (syncIfNeededE okOracles {} ("Hi.").data {} {}).1
        ("Hi.\n").data {} {}).2.1 = []) := by
  decide

-- ── Claim C3 ─────────────────────────────────────────────────────────

theorem embedIfAny_trace (O : Oracles) (cs : List Chunk) :
    (embedIfAny O cs).1 =
      (if cs.length = 0 then [] else [Ev.embedBatch (cs.map (·.text))]) := by
  unfold embedIfAny
  by_cases h : 0 < cs.length
  · rw [if_pos h, if_neg (by omega)]
    cases hB : O.embedBatch (cs.map (·.text)) <;> simp only [hB]
  · rw [if_neg h, if_pos (by omega)]

theorem recordOf_proj (cs : List Chunk) (vs : List Vec) :
    ((cs.enum.map (fun ic => recordOf ic.2 (vs.getD ic.1 []))).map
      (fun r => (r.text, r.chunkHash))) =
      cs.map (fun c => (c.text, c.hash)) := by
  rw [List.map_map]
  conv_rhs => rw [← List.enum_map_snd cs, List.map_map]
  rfl

theorem fullResyncE_ok_trace (O : Oracles) (stored : List Str) (chunks : List Chunk)
    (hok : (fullResyncE O stored chunks).2 = .ok ()) :
    ∃ records : List ChunkRecord,
      (fullResyncE O stored chunks).1 =
        (if (chunks.filter (fun c => !stored.contains c.hash)).length = 0 then []
         else [Ev.embedBatch ((chunks.filter (fun c => !stored.contains c.hash)).map (·.text))]) ++
        (if (chunks.filter (fun c => stored.contains c.hash)).length = 0 then []
         else [Ev.embedBatch ((chunks.filter (fun c => stored.contains c.hash)).map (·.text))]) ++
        [Ev.storeReset] ++
        (if records.length = 0 then [] else [Ev.storeInsert records]) ∧
      records.map (fun r => (r.text, r.chunkHash)) =
        ((chunks.filter (fun c => !stored.contains c.hash)) ++
         (chunks.filter (fun c => stored.contains c.hash))).map (fun c => (c.text, c.hash)) := by
  unfold fullResyncE at hok ⊢
  dsimp only at hok ⊢
  rcases h1 : embedIfAny O (chunks.filter (fun c => !stored.contains c.hash)) with ⟨tr1, e1⟩
  rw [h1] at hok
  have htr1 := embedIfAny_trace O (chunks.filter (fun c => !stored.contains c.hash))
  rw [h1] at htr1
  dsimp only at htr1
  cases e1 with
  | error e => dsimp only at hok; simp at hok
  | ok newVectors =>
    dsimp only at hok ⊢
    rcases h2 : embedIfAny O (chunks.filter (fun c => stored.contains c.hash)) with ⟨tr2, e2⟩
    rw [h2] at hok
    have htr2 := embedIfAny_trace O (chunks.filter (fun c => stored.contains c.hash))
    rw [h2] at htr2
    dsimp only at htr2
    cases e2 with
    | error e => dsimp only at hok; simp at hok
    | ok existingVectors =>
      dsimp only at hok ⊢
      cases hR : O.resetStore with
      | error e => rw [hR] at hok; simp at hok
      | ok u =>
        rw [hR] at hok
        dsimp only at hok ⊢
        refine ⟨(chunks.filter (fun c => !stored.contains c.hash)).enum.map
            (fun ic => recordOf ic.2 (newVectors.getD ic.1 [])) ++
          (chunks.filter (fun c => stored.contains c.hash)).enum.map
            (fun ic => recordOf ic.2 (existingVectors.getD ic.1 [])), ?_, ?_⟩
        · by_cases hrec : 0 <
            ((chunks.filter (fun c => !stored.contains c.hash)).enum.map
              (fun ic => recordOf ic.2 (newVectors.getD ic.1 [])) ++
             (chunks.filter (fun c => stored.contains c.hash)).enum.map
              (fun ic => recordOf ic.2 (existingVectors.getD ic.1 []))).length
          · rw [if_pos hrec] at hok ⊢
            cases hI : O.insertRecords _ with
            | error e => rw [hI] at hok; simp at hok
            | ok v =>
              rw [if_neg (Nat.pos_iff_ne_zero.mp hrec), htr1, htr2]
              simp
          · rw [if_neg hrec] at hok ⊢
            rw [if_pos (Nat.eq_zero_of_not_pos hrec), htr1, htr2]
            simp
        · rw [List.map_append, recordOf_proj, recordOf_proj, List.map_append]

/-- C1 and C3 share nothing; this lemma turns the double filter into a
permutation of the chunk list. -/
theorem filter_partition_perm (stored : List Str) (chunks : List Chunk) :
    ((chunks.filter (fun c => !stored.contains c.hash)) ++
     (chunks.filter (fun c => stored.contains c.hash))).Perm chunks := by
  refine (List.perm_append_comm).trans ?_
  have h := List.filter_append_perm (fun c => stored.contains c.hash) chunks
  exact h

/-- C3 (confirmed): when at least one previously stored chunk hash is
absent from the current chunks and the sync succeeds, the trace is the
hierarchy trace followed by a full resync: a batch embedding of the new
chunks and a batch re-embedding of the previously stored chunks (each
call skipped when its list is empty, together covering every current
chunk), then a store reset, then one insert whose records are exactly
the current chunks (new first). -/
theorem c3_sync_delete_full_resync (O : Oracles) (s : SyncState) (text : Str)
    (copts : ChunkOptions) (hopts : HierarchyOptions) (trH : List Ev)
    (hier : HierarchyMap)
    (hH : extractHierarchyE (some O.embedBatch) O.sqrtA text hopts = (trH, .ok hier))
    (hDel : s.storedHashes.filter
      (fun h => !(dedupKeepFirst ((chunkWithHierarchyM text hier copts).map
        (·.hash))).contains h) ≠ [])
    (hOk : (syncIfNeededE O s text copts hopts).2.2 = .ok true) :
    ∃ records : List ChunkRecord,
      (syncIfNeededE O s text copts hopts).2.1 =
        trH ++
        (if ((chunkWithHierarchyM text hier copts).filter
            (fun c => !s.storedHashes.contains c.hash)).length = 0 then []
         else [Ev.embedBatch (((chunkWithHierarchyM text hier copts).filter
            (fun c => !s.storedHashes.contains c.hash)).map (·.text))]) ++
        (if ((chunkWithHierarchyM text hier copts).filter
            (fun c => s.storedHashes.contains c.hash)).length = 0 then []
         else [Ev.embedBatch (((chunkWithHierarchyM text hier copts).filter
            (fun c => s.storedHashes.contains c.hash)).map (·.text))]) ++
        [Ev.storeReset] ++
        (if records.length = 0 then [] else [Ev.storeInsert records]) ∧
      records.map (fun r => (r.text, r.chunkHash)) =
        (((chunkWithHierarchyM text hier copts).filter
            (fun c => !s.storedHashes.contains c.hash)) ++
         ((chunkWithHierarchyM text hier copts).filter
            (fun c => s.storedHashes.contains c.hash))).map (fun c => (c.text, c.hash)) ∧
      ((((chunkWithHierarchyM text hier copts).filter
            (fun c => !s.storedHashes.contains c.hash)) ++
        ((chunkWithHierarchyM text hier copts).filter
            (fun c => s.storedHashes.contains c.hash)))).Perm
        (chunkWithHierarchyM text hier copts) := by
  have hFast : ¬ s.lastDocHash = some (hashDocumentM text) := by
    intro hf
    simp [syncIfNeededE, hf] at hOk
  simp only [syncIfNeededE, if_neg hFast, hH] at hOk ⊢
  rw [if_pos (List.length_pos.mpr hDel)] at hOk ⊢
  rcases hS : fullResyncE O s.storedHashes (chunkWithHierarchyM text hier copts)
    with ⟨trS, exc2⟩
  rw [hS] at hOk
  cases exc2 with
  | error e => simp at hOk
  | ok u =>
    obtain ⟨⟩ := u
    have hfr : (fullResyncE O s.storedHashes (chunkWithHierarchyM text hier copts)).2 =
        .ok () := by rw [hS]
    obtain ⟨records, htr, hproj⟩ :=
      fullResyncE_ok_trace O s.storedHashes (chunkWithHierarchyM text hier copts) hfr
    rw [hS] at htr
    dsimp only at htr
    refine ⟨records, ?_, hproj,
      filter_partition_perm s.storedHashes (chunkWithHierarchyM text hier copts)⟩
    rw [htr]
    simp [List.append_assoc]

/-- C3 witness: syncing the fixture document over a state holding one
stale hash yields the full-resync trace with the two embed calls, the
reset, and one insert of all current chunks. -/
theorem c3_sync_delete_full_resync_witness :
    ∃ records : List ChunkRecord,
      (syncIfNeededE okOracles c3State c3Text {} {}).2.1 =
        ([] : List Ev) ++
        (if (c3Chunks.filter
            (fun c => !c3State.storedHashes.contains c.hash)).length = 0 then []
         else [Ev.embedBatch ((c3Chunks.filter
            (fun c => !c3State.storedHashes.contains c.hash)).map (·.text))]) ++
        (if (c3Chunks.filter
            (fun c => c3State.storedHashes.contains c.hash)).length = 0 then []
         else [Ev.embedBatch ((c3Chunks.filter
            (fun c => c3State.storedHashes.contains c.hash)).map (·.text))]) ++
        [Ev.storeReset] ++
        (if records.length = 0 then [] else [Ev.storeInsert records]) ∧
      records.map (fun r => (r.text, r.chunkHash)) =
        ((c3Chunks.filter (fun c => !c3State.storedHashes.contains c.hash)) ++
         (c3Chunks.filter (fun c => c3State.storedHashes.contains c.hash))).map
          (fun c => (c.text, c.hash)) ∧
      ((c3Chunks.filter (fun c => !c3State.storedHashes.contains c.hash)) ++
       (c3Chunks.filter (fun c => c3State.storedHashes.contains c.hash))).Perm
        c3Chunks :=
  c3_sync_delete_full_resync okOracles c3State c3Text {} {}
    [] (headingHierarchy c3Text {}) rfl (by decide) (by decide)

-- ── Claim C7 ─────────────────────────────────────────────────────────

/-- C7 counterexample: on the empty document (without an embedder, the
only way to obtain the positional strategy) the extracted hierarchy has
one heading node, a non-empty outline line for it, and one section
summary entry; the claim's empty headings, outline and summaries are
therefore wrong. -/
theorem c7_counterexample :
    (hmHeadingsOf (extractHierarchyE none (fun _ => 0) [] {}).2).length = 1 ∧
    hmOutlineOf (extractHierarchyE none (fun _ => 0) [] {}).2 =
      ("1. Section 1 of 1").data ∧
    ¬ (("1. Section 1 of 1").data = ([] : Str)) := by
  decide

/-- C7 (corrected): the empty document has zero words and no chunks,
and extractHierarchy without an embedder returns the positional
strategy with exactly one zero-length section covering 0 to 0 — but
that section appears as the single heading node, its outline line is
rendered, and the section summaries hold one entry with an empty
summary (they are not empty lists); with an embedder the strategy would
be embedding-similarity instead. -/
theorem c7_empty_document :
    analyzeTextM [] = { totalCharacters := 0, totalWords := 0, totalParagraphs := 0 } ∧
    chunkTextM [] {} = [] ∧
    extractHierarchyE none (fun _ => 0) [] {} =
      ([], .ok { headings := [HeadingNode.mk 1 ("Section 1 of 1").data 0 0 []]
                 outline := ("1. Section 1 of 1").data
                 documentSummary := []
                 sectionSummaries := [⟨("Section 1 of 1").data, [], 0, 0⟩]
                 strategy := .positional }) := by
  refine ⟨by decide, by decide, ?_⟩
  rfl

-- ── Claim C6 ───────────────────────────────────────────────────────
theorem splitOnChar_ne_nil (sep : Char) : ∀ (s : Str), splitOnChar sep s ≠ [] := by
  intro s
  induction s with
  | nil => simp [splitOnChar]
  | cons c t ih =>
    by_cases hc : c = sep
    · simp [splitOnChar, hc]
    · simp only [splitOnChar, if_neg hc]
      cases h : splitOnChar sep t with
      | nil => simp
      | cons p ps => simp

theorem splitOnChar_sum (sep : Char) : ∀ (s : Str),
    ((splitOnChar sep s).map (fun l => l.length + 1)).sum = s.length + 1 := by
  intro s
  induction s with
  | nil => simp [splitOnChar]
  | cons c t ih =>
    by_cases hc : c = sep
    · simp only [splitOnChar, if_pos hc, List.map_cons, List.sum_cons, List.length_cons,
        List.length_nil]
      rw [ih]
      omega
    · simp only [splitOnChar, if_neg hc]
      cases h : splitOnChar sep t with
      | nil => exact absurd h (splitOnChar_ne_nil sep t)
      | cons p ps =>
        rw [h] at ih
        simp only [List.map_cons, List.sum_cons, List.length_cons] at ih ⊢
        omega

theorem recognizeHeading_line_pos (line : Str) (lt : Nat × Str)
    (h : recognizeHeading (jsTrim line) = some lt) : 1 ≤ line.length := by
  cases line with
  | nil =>
    have hn : recognizeHeading (jsTrim ([] : Str)) = none := by decide
    rw [hn] at h
    cases h
  | cons c t => simp

theorem extractHeadingsAux_offsets : ∀ (lines : List Str) (off : Nat),
    (extractHeadingsAux off lines).Pairwise (fun a b => a.offset < b.offset) ∧
    ∀ h ∈ extractHeadingsAux off lines,
      off ≤ h.offset ∧
      h.offset + 2 ≤ off + ((lines.map (fun l => l.length + 1)).sum) := by
  intro lines
  induction lines with
  | nil =>
    intro off
    constructor
    · simp [extractHeadingsAux]
    · intro h hh; simp [extractHeadingsAux] at hh
  | cons line rest ih =>
    intro off
    obtain ⟨ihPair, ihMem⟩ := ih (off + line.length + 1)
    cases hrec : recognizeHeading (jsTrim line) with
    | none =>
      simp only [extractHeadingsAux, hrec, List.nil_append]
      constructor
      · exact ihPair
      · intro h hh
        obtain ⟨h1, h2⟩ := ihMem h hh
        simp only [List.map_cons, List.sum_cons]
        omega
    | some lt =>
      have hline : 1 ≤ line.length := recognizeHeading_line_pos line lt hrec
      simp only [extractHeadingsAux, hrec, List.singleton_append]
      constructor
      · rw [List.pairwise_cons]
        refine ⟨?_, ihPair⟩
        intro b hb
        have hb1 := (ihMem b hb).1
        show off < b.offset
        omega
      · intro h hh
        rcases List.mem_cons.mp hh with rfl | hmem
        · simp only [List.map_cons, List.sum_cons]
          refine ⟨Nat.le_refl _, ?_⟩
          show off + 2 ≤ off + (line.length + 1 + (rest.map (fun l => l.length + 1)).sum)
          omega
        · obtain ⟨h1, h2⟩ := ihMem h hmem
          simp only [List.map_cons, List.sum_cons]
          omega

theorem extractHeadings_offsets (text : Str) :
    (extractHeadings text).Pairwise (fun a b => a.offset < b.offset) ∧
    ∀ h ∈ extractHeadings text, h.offset < text.length := by
  obtain ⟨hPair, hMem⟩ := extractHeadingsAux_offsets (splitOnChar '\n' text) 0
  refine ⟨hPair, ?_⟩
  intro h hh
  have := (hMem h hh).2
  rw [splitOnChar_sum '\n' text] at this
  omega

theorem assignEnds_mem (L : Nat) : ∀ (flat : List FlatHeading) (e : FlatHE),
    e ∈ assignEnds L flat → ∃ f ∈ flat, e.level = f.level ∧ e.offset = f.offset := by
  intro flat
  induction flat with
  | nil => intro e he; simp [assignEnds] at he
  | cons h rest ih =>
    intro e he
    simp only [assignEnds] at he
    rcases List.mem_cons.mp he with rfl | hmem
    · exact ⟨h, List.mem_cons_self _ _, rfl, rfl⟩
    · obtain ⟨f, hf, h1, h2⟩ := ih e hmem
      exact ⟨f, List.mem_cons_of_mem _ hf, h1, h2⟩

theorem assignEnds_length (L : Nat) : ∀ (flat : List FlatHeading),
    (assignEnds L flat).length = flat.length := by
  intro flat
  induction flat with
  | nil => rfl
  | cons h rest ih => simp [assignEnds, ih]

theorem assignEnds_pairwise (L : Nat) : ∀ (flat : List FlatHeading),
    flat.Pairwise (fun a b => a.offset < b.offset) →
    (assignEnds L flat).Pairwise (fun a b => a.offset < b.offset) := by
  intro flat
  induction flat with
  | nil => intro _; simp [assignEnds]
  | cons h rest ih =>
    intro hp
    rw [List.pairwise_cons] at hp
    simp only [assignEnds]
    rw [List.pairwise_cons]
    constructor
    · intro e he
      obtain ⟨f, hf, h1, h2⟩ := assignEnds_mem L rest e he
      show h.offset < e.offset
      rw [h2]
      exact hp.1 f hf
    · exact ih hp.2

theorem assignEnds_find (L : Nat) (k : Nat) : ∀ (flat : List FlatHeading),
    (match (assignEnds L flat).find? (fun x => x.level ≤ k) with
      | some x => x.offset
      | none => L) =
    (match flat.find? (fun n => n.level ≤ k) with
      | some n => n.offset
      | none => L) := by
  intro flat
  induction flat with
  | nil => simp [assignEnds]
  | cons h rest ih =>
    simp only [assignEnds]
    by_cases hk : h.level ≤ k
    · rw [List.find?_cons_of_pos _ (by simp [hk]), List.find?_cons_of_pos _ (by simp [hk])]
    · rw [List.find?_cons_of_neg _ (by simp [hk]), List.find?_cons_of_neg _ (by simp [hk])]
      exact ih

theorem assignEnds_endsCoherent (L : Nat) : ∀ (flat : List FlatHeading),
    EndsCoherent L (assignEnds L flat) := by
  intro flat
  induction flat with
  | nil => simp [assignEnds, EndsCoherent]
  | cons h rest ih =>
    simp only [assignEnds, EndsCoherent]
    exact ⟨(assignEnds_find L h.level rest).symm, ih⟩

theorem dropWhile_head_false (p : α → Bool) : ∀ (l : List α) (o : α) (t : List α),
    l.dropWhile p = o :: t → p o = false := by
  intro l
  induction l with
  | nil => intro o t h; simp [List.dropWhile] at h
  | cons a rest ih =>
    intro o t h
    by_cases ha : p a
    · rw [List.dropWhile_cons_of_pos ha] at h
      exact ih o t h
    · rw [List.dropWhile_cons_of_neg ha] at h
      cases h
      exact Bool.eq_false_iff.mpr ha

theorem find_append_none (p : α → Bool) (l₂ : List α) : ∀ (l₁ : List α),
    (∀ x ∈ l₁, p x = false) → (l₁ ++ l₂).find? p = l₂.find? p := by
  intro l₁
  induction l₁ with
  | nil => intro _; simp
  | cons a rest ih =>
    intro hall
    rw [List.cons_append, List.find?_cons_of_neg _ (by simp [hall a (List.mem_cons_self _ _)])]
    exact ih (fun x hx => hall x (List.mem_cons_of_mem _ hx))

theorem find_append_some (p : α → Bool) (l₂ : List α) : ∀ (l₁ : List α) (x : α),
    l₁.find? p = some x → (l₁ ++ l₂).find? p = some x := by
  intro l₁
  induction l₁ with
  | nil => intro x h; simp [List.find?] at h
  | cons a rest ih =>
    intro x h
    by_cases ha : p a
    · rw [List.find?_cons_of_pos _ ha] at h
      rw [List.cons_append, List.find?_cons_of_pos _ ha]
      exact h
    · rw [List.find?_cons_of_neg _ ha] at h
      rw [List.cons_append, List.find?_cons_of_neg _ ha]
      exact ih x h

theorem endsCoherent_append_right (bound : Nat) (ys : List FlatHE) :
    ∀ (xs : List FlatHE), EndsCoherent bound (xs ++ ys) → EndsCoherent bound ys := by
  intro xs
  induction xs with
  | nil => intro h; exact h
  | cons x rest ih => intro h; exact ih h.2

theorem endsCoherent_tailBound (o : FlatHE) (t : List FlatHE) :
    ∀ (xs : List FlatHE) (bound : Nat),
      EndsCoherent bound (xs ++ o :: t) →
      (∀ e ∈ xs, o.level ≤ e.level) →
      EndsCoherent o.offset xs := by
  intro xs
  induction xs with
  | nil => intro bound _ _; trivial
  | cons e rest ih =>
    intro bound hEC hlev
    obtain ⟨hECe, hECrest⟩ := hEC
    rw [List.append_eq] at hECe hECrest
    constructor
    · cases hfind : rest.find? (fun x => x.level ≤ e.level) with
      | some x =>
        rw [find_append_some _ _ _ _ hfind] at hECe
        exact hECe
      | none =>
        rw [find_append_none _ _ _ (by
          intro y hy
          have := List.find?_eq_none.mp hfind y hy
          simpa using this)] at hECe
        rw [List.find?_cons_of_pos _ (by
          simp [hlev e (List.mem_cons_self _ _)])] at hECe
        exact hECe
    · exact ih bound hECrest (fun x hx => hlev x (List.mem_cons_of_mem _ hx))

theorem endsCoherent_bounds : ∀ (l : List FlatHE) (bound : Nat),
    EndsCoherent bound l →
    l.Pairwise (fun a b => a.offset < b.offset) →
    (∀ e ∈ l, e.offset < bound) →
    ∀ e ∈ l, e.offset < e.endOffset ∧ e.endOffset ≤ bound := by
  intro l
  induction l with
  | nil => intro bound _ _ _ e he; cases he
  | cons h rest ih =>
    intro bound hEC hPair hOff e he
    obtain ⟨hECh, hECrest⟩ := hEC
    rw [List.pairwise_cons] at hPair
    rcases List.mem_cons.mp he with rfl | hmem
    · cases hfind : rest.find? (fun x => x.level ≤ e.level) with
      | none =>
        rw [hfind] at hECh
        rw [hECh]
        exact ⟨hOff e (List.mem_cons_self _ _), Nat.le_refl _⟩
      | some x =>
        rw [hfind] at hECh
        rw [hECh]
        constructor
        · exact hPair.1 x (List.mem_of_find?_eq_some hfind)
        · exact Nat.le_of_lt (hOff x (List.mem_cons_of_mem _ (List.mem_of_find?_eq_some hfind)))
    · exact ih bound hECrest hPair.2 (fun y hy => hOff y (List.mem_cons_of_mem _ hy)) e hmem

theorem rangesIn_of_forall (s e : Int) : ∀ (ns : List HeadingNode),
    (∀ n ∈ ns, s ≤ n.startOffset ∧ n.endOffset ≤ e) → rangesIn s e ns = true := by
  intro ns
  induction ns with
  | nil => intro _; rfl
  | cons n rest ih =>
    intro hall
    cases n with
    | mk l t cs ce kids =>
      have h1 := hall _ (List.mem_cons_self _ _)
      simp only [rangesIn, Bool.and_eq_true, decide_eq_true_eq]
      exact ⟨⟨h1.1, h1.2⟩, ih (fun x hx => hall x (List.mem_cons_of_mem _ hx))⟩

theorem levelsAbove_of_forall (p : Nat) : ∀ (ns : List HeadingNode),
    (∀ n ∈ ns, p < n.level) → levelsAbove p ns = true := by
  intro ns
  induction ns with
  | nil => intro _; rfl
  | cons n rest ih =>
    intro hall
    cases n with
    | mk l t cs ce kids =>
      simp only [levelsAbove, Bool.and_eq_true, decide_eq_true_eq]
      exact ⟨hall _ (List.mem_cons_self _ _), ih (fun x hx => hall x (List.mem_cons_of_mem _ hx))⟩

theorem nestFromF_wf (L : Nat) : ∀ (fuel : Nat) (l : List FlatHE) (plevel bound : Nat),
    l.length < fuel →
    l.Pairwise (fun a b => a.offset < b.offset) →
    EndsCoherent bound l →
    (∀ e ∈ l, e.offset < bound) →
    bound ≤ L →
    (boundsOkForest (L : Int) (nestFromF fuel plevel l) = true ∧
     childWithinForest (nestFromF fuel plevel l) = true ∧
     sibChainB (nestFromF fuel plevel l) = true ∧
     siblingsOkForest (nestFromF fuel plevel l) = true ∧
     levelsIncForest (nestFromF fuel plevel l) = true) ∧
    (∀ n ∈ nestFromF fuel plevel l, ∃ e ∈ l,
       n.level = e.level ∧ n.startOffset = (e.offset : Int) ∧
       n.endOffset = (e.endOffset : Int)) ∧
    (∀ n ns, nestFromF fuel plevel l = n :: ns →
       ∃ e t', l = e :: t' ∧ n.startOffset = (e.offset : Int)) := by
  intro fuel
  induction fuel with
  | zero => intro l plevel bound hf; omega
  | succ fuel ih =>
    intro l plevel bound hfuel hPair hEC hOff hBL
    cases l with
    | nil =>
      refine ⟨⟨rfl, rfl, rfl, rfl, rfl⟩, ?_, ?_⟩
      · intro n hn; simp [nestFromF] at hn
      · intro n ns hcontra; simp [nestFromF] at hcontra
    | cons h rest =>
      obtain ⟨hEChead, hECrest⟩ := hEC
      have hPairRest : rest.Pairwise (fun a b => a.offset < b.offset) :=
        (List.pairwise_cons.mp hPair).2
      have hHeadLt : ∀ e ∈ rest, h.offset < e.offset := (List.pairwise_cons.mp hPair).1
      have hOffRest : ∀ e ∈ rest, e.offset < bound :=
        fun e he => hOff e (List.mem_cons_of_mem _ he)
      have hHB := endsCoherent_bounds (h :: rest) bound ⟨hEChead, hECrest⟩ hPair hOff h
        (List.mem_cons_self _ _)
      by_cases hbrk : h.level ≤ plevel ∧ 0 < plevel
      · have hres : nestFromF (fuel + 1) plevel (h :: rest) = [] := by
          simp [nestFromF, hbrk]
        rw [hres]
        refine ⟨⟨rfl, rfl, rfl, rfl, rfl⟩, ?_, ?_⟩
        · intro n hn; cases hn
        · intro n ns hcontra; cases hcontra
      · obtain ⟨kids, hkids⟩ :
            ∃ ks, ks = rest.takeWhile (fun x => h.level < x.level) := ⟨_, rfl⟩
        obtain ⟨others, hothers⟩ :
            ∃ os, os = rest.dropWhile (fun x => h.level < x.level) := ⟨_, rfl⟩
        have hres : nestFromF (fuel + 1) plevel (h :: rest) =
            HeadingNode.mk h.level h.title (h.offset : Int) (h.endOffset : Int)
              (nestFromF fuel h.level kids) :: nestFromF fuel plevel others := by
          rw [hkids, hothers]
          simp [nestFromF, hbrk]
        have hko : kids ++ others = rest := by
          rw [hkids, hothers]; exact List.takeWhile_append_dropWhile _ _
        have hkmem : ∀ x ∈ kids, h.level < x.level := by
          intro x hx
          rw [hkids] at hx
          have := List.mem_takeWhile_imp hx
          simpa using this
        have hkids_len : kids.length < fuel := by
          have h1 : kids.length ≤ rest.length := by
            rw [hkids]; exact ( List.takeWhile_prefix _).length_le
          have h2 : rest.length + 1 < fuel + 1 := by simpa using hfuel
          omega
        have hothers_len : others.length < fuel := by
          have h1 : others.length ≤ rest.length := by
            rw [hothers]; exact (List.dropWhile_suffix _).length_le
          have h2 : rest.length + 1 < fuel + 1 := by simpa using hfuel
          omega
        have hPairKO : kids.Pairwise (fun a b => a.offset < b.offset) ∧
            others.Pairwise (fun a b => a.offset < b.offset) ∧
            ∀ a ∈ kids, ∀ b ∈ others, a.offset < b.offset := by
          have hp : (kids ++ others).Pairwise (fun a b => a.offset < b.offset) := by
            rw [hko]; exact hPairRest
          exact List.pairwise_append.mp hp
        have hECothers : EndsCoherent bound others :=
          endsCoherent_append_right bound others kids (by rw [hko]; exact hECrest)
        have hfindrest : rest.find? (fun x => x.level ≤ h.level) =
            others.find? (fun x => x.level ≤ h.level) := by
          conv_lhs => rw [← hko]
          refine find_append_none _ _ _ ?_
          intro x hx
          have := hkmem x hx
          simp only [decide_eq_false_iff_not]
          omega
        have hoanalysis : (others = [] ∧ h.endOffset = bound) ∨
            (∃ o t, others = o :: t ∧ h.endOffset = o.offset ∧ o.level ≤ h.level) := by
          cases hoth : others with
          | nil =>
            left
            refine ⟨rfl, ?_⟩
            rw [hfindrest, hoth] at hEChead
            simpa using hEChead
          | cons o t =>
            right
            have holev : ¬ h.level < o.level := by
              have hd := dropWhile_head_false (fun x => decide (h.level < x.level)) rest o t
                (by rw [← hothers]; exact hoth)
              simpa using hd
            refine ⟨o, t, rfl, ?_, by omega⟩
            rw [hfindrest, hoth] at hEChead
            rw [List.find?_cons_of_pos _ (by
              simp only [decide_eq_true_eq]
              omega)] at hEChead
            exact hEChead
        have hkr_nil : others = [] → kids = rest := by
          intro hnil
          rw [← hko, hnil, List.append_nil]
        have hkidsEC : EndsCoherent h.endOffset kids := by
          rcases hoanalysis with ⟨hnil, hend⟩ | ⟨o, t, hoth, hend, holev⟩
          · rw [hend, hkr_nil hnil]
            exact hECrest
          · rw [hend]
            refine endsCoherent_tailBound o t kids bound ?_ ?_
            · rw [← hoth, hko]
              exact hECrest
            · intro e he
              have := hkmem e he
              omega
        have hkidsOff : ∀ e ∈ kids, e.offset < h.endOffset := by
          rcases hoanalysis with ⟨hnil, hend⟩ | ⟨o, t, hoth, hend, holev⟩
          · intro e he
            rw [hend]
            exact hOffRest e (hkr_nil hnil ▸ he)
          · intro e he
            rw [hend]
            exact hPairKO.2.2 e he o (by rw [hoth]; exact List.mem_cons_self _ _)
        have hkidsBL : h.endOffset ≤ L := le_trans hHB.2 hBL
        have hkidsEnds := endsCoherent_bounds kids h.endOffset hkidsEC hPairKO.1 hkidsOff
        obtain ⟨⟨kB, kC, kS, kSS, kL⟩, kMem, kHead⟩ :=
          ih kids h.level h.endOffset hkids_len hPairKO.1 hkidsEC hkidsOff hkidsBL
        obtain ⟨⟨oB, oC, oS, oSS, oL⟩, oMem, oHead⟩ :=
          ih others plevel bound hothers_len hPairKO.2.1 hECothers
            (fun e he => hOffRest e (by rw [← hko]; exact List.mem_append_right _ he)) hBL
        have hmemrest : ∀ e ∈ others, e ∈ rest := by
          intro e he
          rw [← hko]
          exact List.mem_append_right _ he
        have hmemrestk : ∀ e ∈ kids, e ∈ rest := by
          intro e he
          rw [← hko]
          exact List.mem_append_left _ he
        rw [hres]
        refine ⟨⟨?_, ?_, ?_, ?_, ?_⟩, ?_, ?_⟩
        · -- bounds
          simp only [boundsOkForest, boundsOkB, Bool.and_eq_true, decide_eq_true_eq]
          refine ⟨⟨⟨?_, ?_⟩, kB⟩, oB⟩
          · exact_mod_cast hHB.1
          · exact_mod_cast hkidsBL
        · -- containment
          simp only [childWithinForest, childWithinB, Bool.and_eq_true]
          refine ⟨⟨?_, kC⟩, oC⟩
          refine rangesIn_of_forall _ _ _ ?_
          intro n hn
          obtain ⟨e, he, hlev, hstart, hend⟩ := kMem n hn
          constructor
          · rw [hstart]
            have := hHeadLt e (hmemrestk e he)
            exact_mod_cast Nat.le_of_lt this
          · rw [hend]
            have := (hkidsEnds e he).2
            exact_mod_cast this
        · -- sibling chain at this level
          cases hON : nestFromF fuel plevel others with
          | nil => rfl
          | cons n2 ns2 =>
            obtain ⟨e, t', hoth', hstart⟩ := oHead n2 ns2 hON
            rcases hoanalysis with ⟨hnil, _⟩ | ⟨o, t, hoth, hend, holev⟩
            · rw [hnil] at hoth'; cases hoth'
            · rw [hoth] at hoth'
              injection hoth' with h1 h2
              subst h1
              simp only [sibChainB, Bool.and_eq_true, decide_eq_true_eq]
              refine ⟨?_, ?_⟩
              · show (h.endOffset : Int) ≤ n2.startOffset
                rw [hstart, hend]
              · rw [← hON]
                exact oS
        · -- siblings recursively
          simp only [siblingsOkForest, siblingsOkB, Bool.and_eq_true]
          exact ⟨⟨kS, kSS⟩, oSS⟩
        · -- levels
          simp only [levelsIncForest, levelsIncB, Bool.and_eq_true]
          refine ⟨⟨?_, kL⟩, oL⟩
          refine levelsAbove_of_forall _ _ ?_
          intro n hn
          obtain ⟨e, he, hlev, _, _⟩ := kMem n hn
          rw [hlev]
          exact hkmem e he
        · -- member correspondence
          intro n hn
          rcases List.mem_cons.mp hn with rfl | hn2
          · exact ⟨h, List.mem_cons_self _ _, rfl, rfl, rfl⟩
          · obtain ⟨e, he, hprops⟩ := oMem n hn2
            exact ⟨e, List.mem_cons_of_mem _ (hmemrest e he), hprops⟩
        · -- head correspondence
          intro n ns heq
          injection heq with h1 h2
          subst h1
          exact ⟨h, rest, rfl, rfl⟩

theorem buildHierarchyTree_wf (text : Str) :
    headingForestWf (text.length : Int)
      (buildHierarchyTree (extractHeadings text) text.length) = true := by
  obtain ⟨hPair, hOffLt⟩ := extractHeadings_offsets text
  have hPair' := assignEnds_pairwise text.length _ hPair
  have hEC := assignEnds_endsCoherent text.length (extractHeadings text)
  have hOff' : ∀ e ∈ assignEnds text.length (extractHeadings text),
      e.offset < text.length := by
    intro e he
    obtain ⟨f, hf, _, h2⟩ := assignEnds_mem _ _ e he
    rw [h2]
    exact hOffLt f hf
  have hlen : (assignEnds text.length (extractHeadings text)).length <
      (extractHeadings text).length + 1 := by
    rw [assignEnds_length]
    omega
  obtain ⟨⟨hB, hC, hS, hSS, hL⟩, -, -⟩ :=
    nestFromF_wf text.length ((extractHeadings text).length + 1)
      (assignEnds text.length (extractHeadings text)) 0 text.length
      hlen hPair' hEC hOff' (Nat.le_refl _)
  unfold buildHierarchyTree headingForestWf
  rw [hB, hC, hS, hSS, hL]
  rfl

/-- C6 (confirmed): for every document in which headings are detected,
extractHierarchy returns the heading-strategy tree, and every node of
that tree satisfies startOffset < endOffset <= len(text); children's
ranges lie within the parent's range; sibling ranges (including the
roots) are non-overlapping; and levels strictly increase along every
root-to-leaf path. -/
theorem c6_heading_tree_invariants (embed : Option EmbedFn) (sq : Rat → Rat)
    (text : Str) (opts : HierarchyOptions)
    (hHead : extractHeadings text ≠ []) :
    ∃ m : HierarchyMap,
      extractHierarchyE embed sq text opts = ([], .ok m) ∧
      m.headings = buildHierarchyTree (extractHeadings text) text.length ∧
      m.strategy = .heading ∧
      headingForestWf (text.length : Int) m.headings = true :=
  ⟨headingHierarchy text opts,
   extractHierarchyE_of_heads embed sq text opts hHead, rfl, rfl,
   buildHierarchyTree_wf text⟩

/-- C6 witness: the two-heading fixture document has headings and its
extracted tree satisfies all four invariants. -/
theorem c6_heading_tree_invariants_witness :
    extractHeadings ("# Intro\n\nHello world.\n\n## Details\n\nMore text.").data ≠ [] ∧
    ∃ m : HierarchyMap,
      extractHierarchyE none (fun _ => 0)
          ("# Intro\n\nHello world.\n\n## Details\n\nMore text.").data {} = ([], .ok m) ∧
      m.headings = buildHierarchyTree
        (extractHeadings ("# Intro\n\nHello world.\n\n## Details\n\nMore text.").data)
        (("# Intro\n\nHello world.\n\n## Details\n\nMore text.").data).length ∧
      m.strategy = .heading ∧
      headingForestWf ((("# Intro\n\nHello world.\n\n## Details\n\nMore text.").data).length : Int)
        m.headings = true :=
  ⟨by decide,
   c6_heading_tree_invariants none (fun _ => 0)
     ("# Intro\n\nHello world.\n\n## Details\n\nMore text.").data {} (by decide)⟩


end LlmDocx

